import Mathlib

/-!
# money_mind: receipt upload, OCR endpoint and amount extraction

A shallow embedding of
* `parseAmountFromText`, `handleFileSelect`, `handleUpload`
  (`src/components/Modals/UploadReceiptModal.jsx`), and
* the `POST /ocr-upload` handler (`backend/index.js`),

followed by theorems about them.

Modelling conventions.
* A JavaScript string is a `List Char`.  The regular expressions of the source
  carry no `u` flag and only test for ASCII digits, ASCII word characters,
  `.`, `,` and white space, so working on code points instead of UTF-16 code
  units does not change any match.
* A JavaScript number produced by `parseFloat` is the exact decimal it denotes,
  a rational (`ℚ`); `NaN` is `none`.  Rounding to the nearest double is
  monotone, so order comparisons and `Math.max` commute with it.
* The number of arguments the JavaScript engine accepts in one call, past which
  the spread call `Math.max(...candidates)` throws a `RangeError`, is a
  parameter (`Engine`); a call either returns a value or throws (`Result`).
* A regular expression is a value of `Re`; `Re.run` is the backtracking matcher
  of ECMAScript written with lists of successes: the list holds every way the
  pattern can match from a cursor, in the order backtracking explores them, so
  its head is the match the engine reports.
-/

namespace MoneyMind

/-! ## Character classes of ECMAScript regular expressions -/

/-- The class `\d`: ASCII digits. -/
def isDigit (c : Char) : Bool := decide ('0'.toNat ≤ c.toNat) && decide (c.toNat ≤ '9'.toNat)

/-- The class `\w`, which decides `\b`: ASCII letters, digits and underscore. -/
def isWordChar (c : Char) : Bool :=
  isDigit c
    || (decide ('a'.toNat ≤ c.toNat) && decide (c.toNat ≤ 'z'.toNat))
    || (decide ('A'.toNat ≤ c.toNat) && decide (c.toNat ≤ 'Z'.toNat))
    || decide (c = '_')

/-- The class `\s`: ECMAScript white space and line terminators. -/
def isSpace (c : Char) : Bool :=
  let n := c.toNat
  decide (n = 0x20) || (decide (0x09 ≤ n) && decide (n ≤ 0x0D)) || decide (n = 0xA0)
    || decide (n = 0x1680) || (decide (0x2000 ≤ n) && decide (n ≤ 0x200A))
    || decide (n = 0x2028) || decide (n = 0x2029) || decide (n = 0x202F)
    || decide (n = 0x205F) || decide (n = 0x3000) || decide (n = 0xFEFF)

/-! ## A backtracking matcher -/

/-- Regular expressions, as far as the source uses them. -/
inductive Re where
  /-- A character class. -/
  | cls (p : Char → Bool)
  /-- The assertion `\b`. -/
  | wordB
  /-- Concatenation. -/
  | seq (a b : Re)
  /-- Alternation `a|b`, left alternative first. -/
  | alt (a b : Re)
  /-- Greedy repetition `a{lo,hi}`; `hi = none` is `a{lo,}`. -/
  | rep (lo : Nat) (hi : Option Nat) (a : Re)

/-- A position in the subject string: the character before it and what is left. -/
structure Cursor where
  prev : Option Char
  rest : List Char
deriving DecidableEq, Repr

/-- Is the character at this side of a position a word character (`IsWordChar`)? -/
def wordSide (c : Option Char) : Bool :=
  match c with
  | some x => isWordChar x
  | none => false

/-- Greedy repetition of a matcher: between `lo` and `hi` iterations, more
iterations tried first. -/
def repRun (m : Cursor → List Cursor) : Nat → Nat → Cursor → List Cursor
  | lo, 0, c => if lo = 0 then [c] else []
  | lo, hi + 1, c => (m c).flatMap (repRun m (lo - 1) hi) ++ (if lo = 0 then [c] else [])

/-- All matches of a pattern from a cursor, in backtracking order.  An unbounded
repetition runs at most once per remaining character: ECMAScript rejects an
iteration that consumes nothing, and every repeated body of the source's
patterns consumes a character. -/
def Re.run : Re → Cursor → List Cursor
  | .cls p => fun c =>
      match c.rest with
      | x :: r => if p x then [⟨some x, r⟩] else []
      | [] => []
  | .wordB => fun c => if wordSide c.prev != wordSide c.rest.head? then [c] else []
  | .seq a b => fun c => (a.run c).flatMap b.run
  | .alt a b => fun c => a.run c ++ b.run c
  | .rep lo hi a => fun c => repRun a.run lo (hi.getD c.rest.length) c

/-- The global scan behind `String.prototype.match` with a `/g` pattern: try
the pattern at each position from left to right; after a match the scan resumes
at its end, so `skip` counts the characters of the last match still to pass.
An empty match advances by one character. -/
def scan (re : Re) : Option Char → List Char → Nat → List (List Char)
  | prev, [], _ =>
      match (re.run ⟨prev, []⟩).head? with
      | some _ => [[]]
      | none => []
  | _, x :: r, skip + 1 => scan re (some x) r skip
  | prev, x :: r, 0 =>
      match (re.run ⟨prev, x :: r⟩).head? with
      | none => scan re (some x) r 0
      | some e =>
          let n := (x :: r).length - e.rest.length
          (x :: r).take n :: scan re (some x) r (n - 1)

/-- The method `str.match(re)` for a global pattern: `null` when nothing matches. -/
def matchAll (re : Re) (s : List Char) : Option (List (List Char)) :=
  match scan re none s 0 with
  | [] => none
  | ms => some ms

/-! ## `parseAmountFromText` -/

def digit : Re := .cls isDigit
def space : Re := .cls isSpace
def dot : Re := .cls (fun c => c == '.')

/-- The first alternative, `\d{1,3}(?:[\s]\d{3})*(?:\.\d{2})`. -/
def groupedDecimal : Re :=
  .seq (.rep 1 (some 3) digit)
    (.seq (.rep 0 none (.seq space (.rep 3 (some 3) digit)))
      (.seq dot (.rep 2 (some 2) digit)))

/-- The second alternative, `\d+\.\d{2}`. -/
def bareDecimal : Re :=
  .seq (.rep 1 none digit) (.seq dot (.rep 2 (some 2) digit))

/-- The third alternative, `\d{1,3}(?:[\s]\d{3})+`. -/
def groupedInteger : Re :=
  .seq (.rep 1 (some 3) digit) (.rep 1 none (.seq space (.rep 3 (some 3) digit)))

/-- The three alternatives of the group. -/
def moneyAlt : Re := .alt groupedDecimal (.alt bareDecimal groupedInteger)

/-- The pattern of line 28,
`/\b(\d{1,3}(?:[\s]\d{3})*(?:\.\d{2})|\d+\.\d{2}|\d{1,3}(?:[\s]\d{3})+)\b/g`. -/
def moneyRe : Re := .seq .wordB (.seq moneyAlt .wordB)

/-- Line 27, `text.replace(/[,\s]/g, ' ')`: each comma and each white-space
character becomes one space. -/
def normalize (text : List Char) : List Char :=
  text.map (fun c => if c == ',' || isSpace c then ' ' else c)

/-- Value of a string of ASCII digits. -/
def digitsVal (ds : List Char) : Nat :=
  ds.foldl (fun acc c => 10 * acc + (c.toNat - '0'.toNat)) 0

/-- The builtin `parseFloat` on strings made of white space, digits and `.`
(the only characters a match of `moneyRe` contains): skip leading white space,
read the longest prefix `digits`, `digits.`, `digits.digits` or `.digits`;
`none` (NaN) when that prefix holds no digit.  Signs, exponents and `Infinity`
are outside this embedding. -/
def parseFloat (s : List Char) : Option ℚ :=
  let s := s.dropWhile isSpace
  let ip := s.takeWhile isDigit
  match s.dropWhile isDigit with
  | '.' :: r =>
      let fp := r.takeWhile isDigit
      if ip.isEmpty && fp.isEmpty then none
      else some ((digitsVal ip : ℚ) + (digitsVal fp : ℚ) / (10 : ℚ) ^ fp.length)
  | _ => if ip.isEmpty then none else some (digitsVal ip : ℚ)

/-- Line 30, `(s) => parseFloat(s.replace(/\s/g, ''))`. -/
def toNumber (s : List Char) : Option ℚ :=
  parseFloat (s.filter (fun c => !isSpace c))

/-- Line 31, `moneyMatches.map(toNumber).filter((n) => !Number.isNaN(n) && n > 0)`. -/
def candidates (moneyMatches : List (List Char)) : List ℚ :=
  (moneyMatches.map toNumber).filterMap (fun n =>
    match n with
    | some q => if 0 < q then some q else none
    | none => none)

/-- Line 28: `normalized.match(...)`. -/
def moneyMatches (text : List Char) : Option (List (List Char)) :=
  matchAll moneyRe (normalize text)

/-- What the JavaScript engine that runs the modal fixes: the number of arguments
it accepts in one call (a spread call `f(...array)` on a longer array throws a
`RangeError`; the number depends on the engine and on its stack, and every engine
accepts a call with one argument) and the `message` of that `RangeError`. -/
structure Engine where
  maxArgs : Nat
  maxArgs_pos : 0 < maxArgs
  rangeErrorMessage : List Char

/-- An engine for the concrete examples: it accepts 65536 arguments. -/
def sampleEngine : Engine :=
  { maxArgs := 65536
    maxArgs_pos := by decide
    rangeErrorMessage := "Maximum call stack size exceeded".toList }

/-- How a call ends: with the value it returns, or with the `message` of the
error it throws. -/
inductive Result (α : Type) where
  | returns (value : α)
  | throws (message : List Char)
deriving DecidableEq, Repr

/-- Line 34, `Math.max(...candidates)` on the non-empty array `q :: qs`: one
argument per candidate. -/
def spreadMax (engine : Engine) (q : ℚ) (qs : List ℚ) : Result ℚ :=
  if engine.maxArgs < (q :: qs).length then .throws engine.rangeErrorMessage
  else .returns (qs.foldl max q)

/-- Lines 25-35.  `none` is `null`. -/
def parseAmountFromText (engine : Engine) (text : List Char) : Result (Option ℚ) :=
  if text.isEmpty then .returns none
  else
    match moneyMatches text with
    | none => .returns none
    | some ms =>
        match candidates ms with
        | [] => .returns none
        | q :: qs =>
            match spreadMax engine q qs with
            | .returns v => .returns (some v)
            | .throws message => .throws message

/-! ## The upload modal: `handleFileSelect` and `handleUpload` -/

/-- A JavaScript string. -/
abbrev Str := List Char

/-- The `File` picked in the input element: its `name` and MIME `type`. -/
structure File where
  name : Str
  type : Str
deriving DecidableEq, Repr

/-- The object handed to `addTransaction` (lines 91-98). -/
structure TransactionDraft where
  description : Str
  amount : ℚ
  category : Str
  date : Str
  type : Str
  paymentMethod : Str
deriving DecidableEq, Repr

/-- The React state of the modal (lines 18-22). -/
structure ModalState where
  selectedFile : Option File
  previewUrl : Option Str
  isUploading : Bool
  ocrText : Str
  errorMessage : Str
deriving DecidableEq, Repr

/-- The state after the `useState` initialisers. -/
def initialState : ModalState :=
  { selectedFile := none, previewUrl := none, isUploading := false, ocrText := [], errorMessage := [] }

/-- What a handler does to the outside world. -/
inductive Effect where
  /-- A call `alert(message)`. -/
  | alert (message : Str)
  /-- The request `fetch(base + "/ocr-upload", { method: 'POST', body: form })`
  with `file` in the form field `receipt`. -/
  | upload (file : File)
  /-- A call `addTransaction(draft)`. -/
  | addTransaction (draft : TransactionDraft)
deriving DecidableEq, Repr

/-- Line 40. -/
def allowedTypes : List Str :=
  ["application/pdf".toList, "image/jpeg".toList, "image/png".toList, "image/jpg".toList]

/-- Lines 37-63; `files0` is `e.target.files[0]`, `createObjectURL` is
`URL.createObjectURL`. -/
def handleFileSelect (createObjectURL : File → Str) (s : ModalState) (files0 : Option File) :
    ModalState × List Effect :=
  match files0 with
  | none => (s, [])
  | some file =>
      if file.type ∉ allowedTypes then
        (s, [.alert "Please select a PDF, JPG, or PNG file".toList])
      else if file.type = "application/pdf".toList then
        (s, [.alert "OCR currently supports images (JPG/PNG). Please upload an image.".toList])
      else
        ({ s with
            selectedFile := some file
            previewUrl :=
              if "image/".toList.isPrefixOf file.type then some (createObjectURL file) else none },
         [])

/-- Lines 110-116. -/
def removeFile (s : ModalState) : ModalState :=
  { s with selectedFile := none, previewUrl := none }

/-- What `response.json()` settles to.  The body either fails to parse as JSON
(the promise rejects with an error carrying `message`) or is an object whose
fields `text` and `error`, when present, are strings, as the endpoint sends
them. -/
inductive Body where
  | invalid (message : Str)
  | object (text : Option Str) (error : Option Str)
deriving DecidableEq, Repr

/-- How the `fetch` of line 78 settles: it rejects (network fault) with an error
carrying `message`, or resolves to a response with its `ok` flag and body. -/
inductive FetchResult where
  | networkFault (message : Str)
  | response (ok : Bool) (body : Body)
deriving DecidableEq, Repr

/-- The expression `a || b` on a possibly `undefined` string: `b` unless `a` is
a non-empty string. -/
def orElse (a : Option Str) (b : Str) : Str :=
  match a with
  | some x => if x.isEmpty then b else x
  | none => b

/-- The expression `Number(amount.toFixed(2))`: round to two decimals, ties away
from zero. -/
def toFixed2 (x : ℚ) : ℚ :=
  if x < 0 then -(((⌊(-x) * 100 + 1 / 2⌋ : ℤ) : ℚ) / 100)
  else ((⌊x * 100 + 1 / 2⌋ : ℤ) : ℚ) / 100

/-- Line 92, `selectedFile?.name?.split('.')?.[0] || 'Receipt OCR'`. -/
def description (file : File) : Str :=
  orElse (some (file.name.takeWhile (fun c => c != '.'))) "Receipt OCR".toList

/-- Lines 91-98; `now` is `new Date().toISOString()`. -/
def mkDraft (file : File) (amount : ℚ) (now : Str) : TransactionDraft :=
  { description := description file
    amount := toFixed2 amount
    category := "Other".toList
    date := now
    type := "expense".toList
    paymentMethod := "Cash".toList }

/-- The body of the outer `try` (lines 74-102) after `setIsUploading(true)`: the
state when the block is left, the `message` of the error thrown out of it, if
any, and the effects so far.  `addTransaction` tells whether the store call
throws; the inner `try`/`catch` discards that.  The call of
`parseAmountFromText` (line 88) stands outside the inner `try`. -/
def uploadAttempt (engine : Engine) (fetch : File → FetchResult)
    (addTransaction : TransactionDraft → Except Str Unit)
    (now : Str) (file : File) (s : ModalState) : (ModalState × Option Str) × List Effect :=
  match fetch file with
  | .networkFault message => ((s, some message), [.upload file])
  | .response false body =>
      let err : Option Str :=
        match body with
        | .invalid _ => none
        | .object _ error => error
      ((s, some (orElse err "Upload failed".toList)), [.upload file])
  | .response true (.invalid message) => ((s, some message), [.upload file])
  | .response true (.object data_text _) =>
      let text := orElse data_text []
      let s := { s with ocrText := text }
      match parseAmountFromText engine text with
      | .throws message => ((s, some message), [.upload file])
      | .returns (some amount) =>
          if amount ≠ 0 then
            let draft := mkDraft file amount now
            match addTransaction draft with
            | .ok _ => ((s, none), [.upload file, .addTransaction draft])
            | .error _ => ((s, none), [.upload file, .addTransaction draft])
          else ((s, none), [.upload file])
      | .returns none => ((s, none), [.upload file])

/-- Lines 65-108.  The handler never rejects: every throw inside is caught at
line 103. -/
def handleUpload (engine : Engine) (fetch : File → FetchResult)
    (addTransaction : TransactionDraft → Except Str Unit)
    (now : Str) (s : ModalState) : ModalState × List Effect :=
  let s := { s with errorMessage := [], ocrText := [] }
  match s.selectedFile with
  | none => (s, [.alert "Please select a file first".toList])
  | some file =>
      let s := { s with isUploading := true }
      match uploadAttempt engine fetch addTransaction now file s with
      | ((s, none), effects) => ({ s with isUploading := false }, effects)
      | ((s, some message), effects) =>
          ({ s with errorMessage := orElse (some message) "Something went wrong".toList,
                    isUploading := false }, effects)

/-- One user action on the modal; a submission comes with the engine it runs
on and with what the network, the store and the clock do. -/
inductive Event where
  | select (createObjectURL : File → Str) (files0 : Option File)
  | submit (engine : Engine) (fetch : File → FetchResult)
      (addTransaction : TransactionDraft → Except Str Unit) (now : Str)
  | remove

/-- The handler an action triggers. -/
def step (s : ModalState) : Event → ModalState × List Effect
  | .select createObjectURL files0 => handleFileSelect createObjectURL s files0
  | .submit engine fetch addTransaction now => handleUpload engine fetch addTransaction now s
  | .remove => (removeFile s, [])

/-- A session: the actions in order from a state, with all effects in order. -/
def runEvents (s : ModalState) : List Event → ModalState × List Effect
  | [] => (s, [])
  | e :: es =>
      let r := step s e
      let t := runEvents r.1 es
      (t.1, r.2 ++ t.2)

/-! ## The endpoint `POST /ocr-upload` (`backend/index.js`, lines 23-39) -/

/-- The request as the middleware `upload.single("receipt")` of line 23 finds it:
the path under which the file of the form field `receipt` is stored, if the form
carries one, and whether the middleware fails on the request (a multipart body
it cannot parse, a file under another field name).  When it fails it passes its
error on, the handler of lines 23-39 is not run and, no error middleware being
registered, Express's default error handler answers. -/
structure Request where
  file : Option Str
  rejected : Bool
deriving DecidableEq, Repr

/-- The body of an answer: the JSON bodies the handler sends, or the HTML error
page of Express's default error handler. -/
inductive ResponseBody where
  | text (text : Str)
  | error (error : Str)
  | errorPage
deriving DecidableEq, Repr

/-- What the handler threw into its `catch`: the `TypeError` of destructuring
an absent `req.file`, or the engine's fault. -/
inductive Thrown (ε : Type) where
  | typeError
  | engine (fault : ε)
deriving DecidableEq, Repr

/-- How the call `Tesseract.recognize(path, "eng")` of line 30, made without an
error handler, ends: the awaited promise resolves and `.data.text` is `text`; the
promise rejects with a fault, which the `catch` of line 35 receives; or the
engine throws its fault outside the awaited promise, where nothing catches it
and the process exits. -/
inductive Recognition (ε : Type) where
  | text (text : Str)
  | rejects (fault : ε)
  | uncaught (fault : ε)
deriving DecidableEq, Repr

/-- An answer: status, body and what the `console.error` of line 36 received. -/
structure Response (ε : Type) where
  status : Nat
  body : ResponseBody
  logged : Option (Thrown ε)
deriving DecidableEq, Repr

/-- The outcome of one request: the answer, absent when the process exits
without answering, and the calls of `Tesseract.recognize(path, lang)`. -/
structure Outcome (ε : Type) where
  response : Option (Response ε)
  engineCalls : List (Str × Str)
deriving DecidableEq, Repr

/-- The route of lines 23-39.  The errors of the multipart middleware carry no
`status`, so Express's default error handler answers them with status 500. -/
def ocrUpload {ε : Type} (recognize : Str → Str → Recognition ε) (req : Request) : Outcome ε :=
  if req.rejected then
    { response := some { status := 500, body := .errorPage, logged := none }, engineCalls := [] }
  else
    match req.file with
    | none =>
        { response := some { status := 500, body := .error "OCR failed".toList,
                             logged := some .typeError },
          engineCalls := [] }
    | some path =>
        match recognize path "eng".toList with
        | .text text =>
            { response := some { status := 200, body := .text text, logged := none },
              engineCalls := [(path, "eng".toList)] }
        | .rejects fault =>
            { response := some { status := 500, body := .error "OCR failed".toList,
                                 logged := some (.engine fault) },
              engineCalls := [(path, "eng".toList)] }
        | .uncaught _ =>
            { response := none, engineCalls := [(path, "eng".toList)] }

/-! ## Notions the statements use -/

/-- The accepted image types of the claim. -/
def imageTypes : List Str := ["image/jpeg".toList, "image/png".toList, "image/jpg".toList]

/-- The files a list of effects sends to the endpoint. -/
def uploads (effects : List Effect) : List File :=
  effects.filterMap (fun e =>
    match e with
    | .upload f => some f
    | _ => none)

/-- The invariant of the modal: the selected file, if any, is an image. -/
def ImageSelected (s : ModalState) : Prop :=
  ∀ f, s.selectedFile = some f → f.type ∈ imageTypes

/-- The strings a pattern describes; the assertion `\b` describes the empty
string. -/
def Re.Lang : Re → List Char → Prop
  | .cls p, t => ∃ x, t = [x] ∧ p x = true
  | .wordB, t => t = []
  | .seq a b, t => ∃ t1 t2, t = t1 ++ t2 ∧ a.Lang t1 ∧ b.Lang t2
  | .alt a b, t => a.Lang t ∨ b.Lang t
  | .rep lo hi a, t =>
      ∃ ts : List (List Char), t = ts.flatten ∧ lo ≤ ts.length
        ∧ (∀ n, hi = some n → ts.length ≤ n) ∧ ∀ x ∈ ts, a.Lang x

/-- Every character class of the pattern lies inside `P`. -/
def Re.within (P : Char → Bool) : Re → Prop
  | .cls p => ∀ x, p x = true → P x = true
  | .wordB => True
  | .seq a b => a.within P ∧ b.within P
  | .alt a b => a.within P ∧ b.within P
  | .rep _ _ a => a.within P

/-- A monetary-pattern substring: the normalized text holds a string of one of
the three shapes (grouped thousands with two decimals, bare decimal with two
fractional digits, grouped thousands without decimals). -/
def HasMoneyPattern (text : List Char) : Prop :=
  ∃ pre t post, normalize text = pre ++ t ++ post ∧ moneyAlt.Lang t

/-- A decimal numeral with no or with two fractional digits. -/
def Decimal2 (u : List Char) : Prop :=
  ∃ ds, ds ≠ [] ∧ (∀ x ∈ ds, isDigit x = true)
    ∧ (u = ds ∨ ∃ a b, isDigit a = true ∧ isDigit b = true ∧ u = ds ++ ['.', a, b])

/-- The characters line 27 replaces: comma and white space. -/
def isSep (c : Char) : Bool := c == ',' || isSpace c

/-- The normalization as C4 words it: each maximal run of commas and white space
becomes one space (a separator yields the space only when it ends its run). -/
def collapseRuns : List Char → List Char
  | [] => []
  | x :: r =>
      if isSep x then
        if (r.head?.map isSep).getD false then collapseRuns r else ' ' :: collapseRuns r
      else x :: collapseRuns r

/-- The drafts a list of effects hands to `addTransaction`, in order. -/
def submitted (effects : List Effect) : List TransactionDraft :=
  effects.filterMap (fun e =>
    match e with
    | .addTransaction d => some d
    | _ => none)

/-- The character before the cursor once `t` has been consumed from a cursor
whose previous character was `p`. -/
def prevAfter (p : Option Char) (t : List Char) : Option Char := t.getLast?.or p

/-- The file name with its extension stripped, as C11 words it: the name without
its final `.`-suffix; a name without `.` is left as it is. -/
def stripExtension (name : Str) : Str :=
  if '.' ∈ name then ((name.reverse.dropWhile (fun c => c != '.')).drop 1).reverse else name

/-- The white-space-delimited tokens of a text. -/
def wsTokens (text : List Char) : List (List Char) :=
  (text.splitOnP isSpace).filter (fun t => !t.isEmpty)

/-- The number a token prints, when the token is a plain decimal numeral (digits
with at most one `.`). -/
def tokenNumber (t : List Char) : Option ℚ :=
  if t.all (fun c => isDigit c || c == '.') && decide ((t.filter (fun c => c == '.')).length ≤ 1)
  then parseFloat t
  else none

/-- The text of `n` amounts `1.00`, each followed by one space. -/
def manyAmounts (n : Nat) : List Char := (List.replicate n "1.00 ".toList).flatten

/-! # Theorems -/

/-! ## The file-selection invariant -/

theorem imageType_of_allowed {t : Str} (h1 : t ∈ allowedTypes)
    (h2 : t ≠ "application/pdf".toList) : t ∈ imageTypes := by
  simp only [allowedTypes, List.mem_cons, List.mem_singleton, List.not_mem_nil, or_false] at h1
  simp only [imageTypes, List.mem_cons, List.mem_singleton, List.not_mem_nil, or_false]
  rcases h1 with h | h
  · exact absurd h h2
  · exact h

theorem handleFileSelect_cases (u : File → Str) (s : ModalState) (file : File) :
    ((handleFileSelect u s (some file)).1 = s ∧ uploads (handleFileSelect u s (some file)).2 = [])
    ∨ (file.type ∈ imageTypes ∧ (handleFileSelect u s (some file)).1.selectedFile = some file
        ∧ (handleFileSelect u s (some file)).2 = []) := by
  by_cases h1 : file.type ∉ allowedTypes
  · left
    simp only [handleFileSelect, if_pos h1]
    simp [uploads]
  · by_cases h2 : file.type = "application/pdf".toList
    · left
      simp only [handleFileSelect, if_neg h1, if_pos h2]
      simp [uploads]
    · right
      simp only [handleFileSelect, if_neg h1, if_neg h2]
      exact ⟨imageType_of_allowed (not_not.mp h1) h2, trivial, trivial⟩

theorem uploadAttempt_cases (engine fetch addTx now file s) :
    uploads (uploadAttempt engine fetch addTx now file s).2 = [file]
    ∧ (uploadAttempt engine fetch addTx now file s).1.1.selectedFile = s.selectedFile := by
  unfold uploadAttempt
  split
  · simp [uploads]
  · simp [uploads]
  · simp [uploads]
  · dsimp only
    split
    · simp [uploads]
    · split_ifs
      · split <;> simp [uploads]
      · simp [uploads]
    · simp [uploads]

theorem handleUpload_cases (engine fetch addTx now) (s : ModalState) :
    (handleUpload engine fetch addTx now s).1.selectedFile = s.selectedFile
    ∧ ∀ f ∈ uploads (handleUpload engine fetch addTx now s).2, s.selectedFile = some f := by
  unfold handleUpload
  dsimp only
  cases hsel : s.selectedFile with
  | none => simp [uploads]
  | some file =>
    dsimp only
    have h := uploadAttempt_cases engine fetch addTx now file
      { selectedFile := some file, previewUrl := s.previewUrl, isUploading := true,
        ocrText := [], errorMessage := [] }
    revert h
    generalize uploadAttempt engine fetch addTx now file _ = r
    rcases r with ⟨⟨s', m⟩, r2⟩
    cases m with
    | none =>
      intro h
      dsimp only at h ⊢
      refine ⟨h.2, ?_⟩
      rw [h.1]
      simp
    | some m =>
      intro h
      dsimp only at h ⊢
      refine ⟨h.2, ?_⟩
      rw [h.1]
      simp

theorem step_inv (s : ModalState) (e : Event) (h : ImageSelected s) :
    ImageSelected (step s e).1 ∧ ∀ f ∈ uploads (step s e).2, f.type ∈ imageTypes := by
  cases e with
  | select u o =>
    cases o with
    | none => exact ⟨h, by simp [step, handleFileSelect, uploads]⟩
    | some file =>
      rcases handleFileSelect_cases u s file with h1 | h1
      · simp only [step]
        rw [h1.1, h1.2]
        exact ⟨h, by simp⟩
      · simp only [step]
        refine ⟨?_, ?_⟩
        · intro f hf
          rw [h1.2.1] at hf
          cases hf
          exact h1.1
        · rw [h1.2.2]
          simp [uploads]
  | submit engine fetch addTx now =>
    have h1 := handleUpload_cases engine fetch addTx now s
    simp only [step]
    refine ⟨?_, ?_⟩
    · intro f hf
      rw [h1.1] at hf
      exact h f hf
    · intro f hf
      exact h f (h1.2 f hf)
  | remove =>
    refine ⟨?_, ?_⟩
    · intro f hf
      simp [step, removeFile] at hf
    · simp [step, uploads]

theorem uploads_append (a b : List Effect) : uploads (a ++ b) = uploads a ++ uploads b := by
  simp [uploads, List.filterMap_append]

theorem runEvents_inv (es : List Event) : ∀ s, ImageSelected s →
    ImageSelected (runEvents s es).1 ∧ ∀ f ∈ uploads (runEvents s es).2, f.type ∈ imageTypes := by
  induction es with
  | nil =>
    intro s h
    exact ⟨h, by simp [runEvents, uploads]⟩
  | cons e es ih =>
    intro s h
    have h1 := step_inv s e h
    have h2 := ih (step s e).1 h1.1
    simp only [runEvents]
    refine ⟨h2.1, ?_⟩
    intro f hf
    rw [uploads_append, List.mem_append] at hf
    rcases hf with hf | hf
    · exact h1.2 f hf
    · exact h2.2 f hf

/-- C10. Whatever the user does from the initial state, the selected file is
never of a type outside image/jpeg, image/png, image/jpg, every upload request
carries a file of one of these types (so never a PDF), and selecting a file of
any other type leaves the state, `selectedFile` and `previewUrl` included,
unchanged. -/
theorem selectedFile_is_image (events : List Event) :
    (∀ f, (runEvents initialState events).1.selectedFile = some f → f.type ∈ imageTypes)
    ∧ (∀ f ∈ uploads (runEvents initialState events).2,
        f.type ∈ imageTypes ∧ f.type ≠ "application/pdf".toList)
    ∧ (∀ (createObjectURL : File → Str) (s : ModalState) (file : File),
        file.type ∉ imageTypes →
          (handleFileSelect createObjectURL s (some file)).1 = s
          ∧ uploads (handleFileSelect createObjectURL s (some file)).2 = []) := by
  have h0 : ImageSelected initialState := by
    intro f hf
    simp [initialState] at hf
  have h := runEvents_inv events initialState h0
  refine ⟨h.1, ?_, ?_⟩
  · intro f hf
    have hi := h.2 f hf
    refine ⟨hi, ?_⟩
    intro hp
    rw [hp] at hi
    revert hi
    decide
  · intro u s file hfile
    rcases handleFileSelect_cases u s file with h1 | h1
    · exact h1
    · exact absurd h1.1 hfile

/-! ## The endpoint -/

/-- C8, as the code has it. A request without a file never reaches the OCR
engine and is answered with status 500, a server error: when the multipart
middleware passes it on, the handler answers `{ error: "OCR failed" }` after the
`TypeError` of reading `req.file`; when the middleware rejects it, Express
answers with its error page. -/
theorem ocrUpload_no_file {ε : Type} (recognize : Str → Str → Recognition ε) (rejected : Bool) :
    (ocrUpload recognize ⟨none, rejected⟩).engineCalls = []
    ∧ ∃ r, (ocrUpload recognize ⟨none, rejected⟩).response = some r
      ∧ r.status = 500
      ∧ (rejected = false → r.body = .error "OCR failed".toList ∧ r.logged = some .typeError)
      ∧ (rejected = true → r.body = .errorPage) := by
  cases rejected with
  | false =>
    refine ⟨rfl, _, rfl, rfl, fun _ => ⟨rfl, rfl⟩, ?_⟩
    intro h
    exact absurd h (by decide)
  | true =>
    refine ⟨rfl, _, rfl, rfl, ?_, fun _ => rfl⟩
    intro h
    exact absurd h (by decide)

/-- C8, as stated, fails: a request without a file that reaches the handler is
answered with status 500, which is not a client error (a status from 400 to
499). -/
theorem ocrUpload_no_file_not_client_error :
    (ocrUpload (fun _ _ => (Recognition.text [] : Recognition Unit)) ⟨none, false⟩).response.map
        (fun r => (r.status, decide (400 ≤ r.status ∧ r.status < 500)))
      = some (500, false) := by
  decide

theorem ocrUpload_passed {ε : Type} (recognize : Str → Str → Recognition ε) (path : Str) :
    ocrUpload recognize ⟨some path, false⟩ =
      match recognize path "eng".toList with
      | .text text =>
          { response := some { status := 200, body := .text text, logged := none },
            engineCalls := [(path, "eng".toList)] }
      | .rejects fault =>
          { response := some { status := 500, body := .error "OCR failed".toList,
                               logged := some (.engine fault) },
            engineCalls := [(path, "eng".toList)] }
      | .uncaught _ =>
          { response := none, engineCalls := [(path, "eng".toList)] } :=
  rfl

/-- For a request with a file that reaches the handler: recognized text `t` gives
status 200 with body `{ text: t }`, and any two faults that arrive as a rejection
of the awaited call, of any two engines on any two files, give the same answer,
status 500 with body `{ error: "OCR failed" }`. -/
theorem ocrUpload_response {ε : Type} (recognize recognize' : Str → Str → Recognition ε)
    (path path' : Str) :
    (∀ t, recognize path "eng".toList = .text t →
      (ocrUpload recognize ⟨some path, false⟩).response
        = some { status := 200, body := .text t, logged := none })
    ∧ (∀ fault fault', recognize path "eng".toList = .rejects fault →
        recognize' path' "eng".toList = .rejects fault' →
        (ocrUpload recognize ⟨some path, false⟩).response
          = some { status := 500, body := .error "OCR failed".toList,
                   logged := some (.engine fault) }
        ∧ (ocrUpload recognize' ⟨some path', false⟩).response
          = some { status := 500, body := .error "OCR failed".toList,
                   logged := some (.engine fault') }) := by
  refine ⟨?_, ?_⟩
  · intro t h
    rw [ocrUpload_passed, h]
  · intro f f' h h'
    rw [ocrUpload_passed, ocrUpload_passed, h, h']
    exact ⟨rfl, rfl⟩

/-- C9, at the failing input. When the engine throws its fault outside the
awaited promise, the request gets no answer at all (the process exits), where the
claim has status 500 with body `{ error: "OCR failed" }`. -/
theorem ocrUpload_uncaught_fault {ε : Type} (recognize : Str → Str → Recognition ε)
    (path : Str) (fault : ε) (h : recognize path "eng".toList = .uncaught fault) :
    (ocrUpload recognize ⟨some path, false⟩).response = none
    ∧ (ocrUpload recognize ⟨some path, false⟩).engineCalls = [(path, "eng".toList)] := by
  rw [ocrUpload_passed, h]
  exact ⟨rfl, rfl⟩

theorem ocrUpload_uncaught_fault_witness :
    (ocrUpload (fun _ _ => (Recognition.uncaught 1 : Recognition Nat))
        ⟨some "uploads/a1".toList, false⟩).response = none
    ∧ (ocrUpload (fun _ _ => (Recognition.uncaught 1 : Recognition Nat))
        ⟨some "uploads/a1".toList, false⟩).engineCalls = [("uploads/a1".toList, "eng".toList)] :=
  ocrUpload_uncaught_fault (fun _ _ => (Recognition.uncaught 1 : Recognition Nat))
    "uploads/a1".toList 1 rfl

/-! ## The upload workflow -/

theorem uploadAttempt_success (engine : Engine) (fetch : File → FetchResult)
    (addTransaction : TransactionDraft → Except Str Unit) (now : Str) (file : File)
    (s : ModalState) (data_text error : Option Str)
    (h : fetch file = .response true (.object data_text error)) :
    (uploadAttempt engine fetch addTransaction now file s).1.1
        = { s with ocrText := orElse data_text [] }
    ∧ (uploadAttempt engine fetch addTransaction now file s).1.2 =
        (match parseAmountFromText engine (orElse data_text []) with
        | .throws message => some message
        | .returns _ => none)
    ∧ (uploadAttempt engine fetch addTransaction now file s).2 =
        match parseAmountFromText engine (orElse data_text []) with
        | .throws _ => [.upload file]
        | .returns (some amount) =>
            if amount ≠ 0 then [.upload file, .addTransaction (mkDraft file amount now)]
            else [.upload file]
        | .returns none => [.upload file] := by
  unfold uploadAttempt
  rw [h]
  dsimp only
  cases parseAmountFromText engine (orElse data_text []) with
  | throws m => exact ⟨rfl, rfl, rfl⟩
  | returns r =>
    cases r with
    | none => exact ⟨rfl, rfl, rfl⟩
    | some a =>
      dsimp only
      by_cases ha : a ≠ 0
      · rw [if_pos ha, if_pos ha]
        cases addTransaction (mkDraft file a now) <;> exact ⟨rfl, rfl, rfl⟩
      · rw [if_neg ha, if_neg ha]
        exact ⟨rfl, rfl, rfl⟩

theorem handleUpload_success (engine : Engine) (fetch : File → FetchResult)
    (addTransaction : TransactionDraft → Except Str Unit) (now : Str) (file : File)
    (s : ModalState) (data_text error : Option Str) (hs : s.selectedFile = some file)
    (h : fetch file = .response true (.object data_text error)) :
    (handleUpload engine fetch addTransaction now s).1 =
        (match parseAmountFromText engine (orElse data_text []) with
        | .throws message =>
            { s with ocrText := orElse data_text [],
                     errorMessage := orElse (some message) "Something went wrong".toList,
                     isUploading := false }
        | .returns _ =>
            { s with ocrText := orElse data_text [], errorMessage := [], isUploading := false })
    ∧ (handleUpload engine fetch addTransaction now s).2 =
        match parseAmountFromText engine (orElse data_text []) with
        | .throws _ => [.upload file]
        | .returns (some amount) =>
            if amount ≠ 0 then [.upload file, .addTransaction (mkDraft file amount now)]
            else [.upload file]
        | .returns none => [.upload file] := by
  unfold handleUpload
  dsimp only
  rw [hs]
  dsimp only
  have h1 := uploadAttempt_success engine fetch addTransaction now file
    { selectedFile := some file, previewUrl := s.previewUrl, isUploading := true,
      ocrText := [], errorMessage := [] } data_text error h
  revert h1
  generalize uploadAttempt engine fetch addTransaction now file _ = r
  rcases r with ⟨⟨s', m⟩, r2⟩
  rintro ⟨h1, h2, h3⟩
  dsimp only at h1 h2 h3
  subst h1
  subst h3
  cases hp : parseAmountFromText engine (orElse data_text []) with
  | throws msg =>
    rw [hp] at h2
    subst h2
    exact ⟨rfl, rfl⟩
  | returns r =>
    rw [hp] at h2
    subst h2
    exact ⟨rfl, rfl⟩

/-- After a successful upload with recognized text `t` on which
`parseAmountFromText` returns, the workflow ends with `ocrText = t`, an empty
`errorMessage` and `isUploading = false`, whatever `addTransaction` does, so any
two behaviours of `addTransaction` leave the same state. -/
theorem handleUpload_isolates_store (engine : Engine) (fetch : File → FetchResult)
    (addTransaction addTransaction' : TransactionDraft → Except Str Unit) (now : Str)
    (file : File) (s : ModalState) (t : Str) (error : Option Str) (r : Option ℚ)
    (hs : s.selectedFile = some file)
    (h : fetch file = .response true (.object (some t) error))
    (hp : parseAmountFromText engine t = .returns r) :
    (handleUpload engine fetch addTransaction now s).1 =
        { s with ocrText := t, errorMessage := [], isUploading := false }
    ∧ (handleUpload engine fetch addTransaction' now s).1
        = (handleUpload engine fetch addTransaction now s).1 := by
  have ht : orElse (some t) [] = t := by
    cases t with
    | nil => rfl
    | cons x r => rfl
  have h1 := (handleUpload_success engine fetch addTransaction now file s (some t) error hs h).1
  have h2 := (handleUpload_success engine fetch addTransaction' now file s (some t) error hs h).1
  rw [ht, hp] at h1 h2
  exact ⟨h1, h2.trans h1.symm⟩

theorem handleUpload_isolates_store_witness :
    (handleUpload sampleEngine
        (fun _ => .response true (.object (some "Total 42.00".toList) none))
        (fun _ => .error "not logged in".toList) "2024-01-01T00:00:00.000Z".toList
        { initialState with selectedFile := some ⟨"receipt.png".toList, "image/png".toList⟩ }).1 =
      { selectedFile := some ⟨"receipt.png".toList, "image/png".toList⟩, previewUrl := none,
        isUploading := false, ocrText := "Total 42.00".toList, errorMessage := [] }
    ∧ (handleUpload sampleEngine
        (fun _ => .response true (.object (some "Total 42.00".toList) none))
        (fun _ => .ok ()) "2024-01-01T00:00:00.000Z".toList
        { initialState with selectedFile := some ⟨"receipt.png".toList, "image/png".toList⟩ }).1 =
      (handleUpload sampleEngine
        (fun _ => .response true (.object (some "Total 42.00".toList) none))
        (fun _ => .error "not logged in".toList) "2024-01-01T00:00:00.000Z".toList
        { initialState with selectedFile := some ⟨"receipt.png".toList, "image/png".toList⟩ }).1 :=
  handleUpload_isolates_store sampleEngine
    (fun _ => .response true (.object (some "Total 42.00".toList) none))
    (fun _ => .error "not logged in".toList) (fun _ => .ok ()) "2024-01-01T00:00:00.000Z".toList
    ⟨"receipt.png".toList, "image/png".toList⟩
    { initialState with selectedFile := some ⟨"receipt.png".toList, "image/png".toList⟩ }
    "Total 42.00".toList none (some 42) rfl rfl (by decide!)

/-! ## The matcher finds only strings of the pattern -/

theorem repRun_sound (m : Cursor → List Cursor) (L : List Char → Prop)
    (hm : ∀ c e, e ∈ m c → ∃ t, c.rest = t ++ e.rest ∧ L t) :
    ∀ (hi lo : Nat) (c e : Cursor), e ∈ repRun m lo hi c →
      ∃ ts : List (List Char), c.rest = ts.flatten ++ e.rest ∧ lo ≤ ts.length
        ∧ ts.length ≤ hi ∧ ∀ x ∈ ts, L x := by
  intro hi
  induction hi with
  | zero =>
    intro lo c e he
    simp only [repRun] at he
    by_cases hlo : lo = 0
    · rw [if_pos hlo] at he
      have : e = c := by simpa using he
      subst this
      exact ⟨[], by simp, by omega, by simp, by simp⟩
    · rw [if_neg hlo] at he
      simp at he
  | succ hi ih =>
    intro lo c e he
    simp only [repRun, List.mem_append, List.mem_flatMap] at he
    rcases he with ⟨d, hd, he⟩ | he
    · obtain ⟨t, ht, hL⟩ := hm c d hd
      obtain ⟨ts, hts, h1, h2, h3⟩ := ih (lo - 1) d e he
      refine ⟨t :: ts, ?_, ?_, ?_, ?_⟩
      · rw [ht, hts]
        simp
      · simp only [List.length_cons]
        omega
      · simp only [List.length_cons]
        omega
      · intro x hx
        rcases List.mem_cons.mp hx with hx | hx
        · rw [hx]
          exact hL
        · exact h3 x hx
    · by_cases hlo : lo = 0
      · rw [if_pos hlo] at he
        have : e = c := by simpa using he
        subst this
        exact ⟨[], by simp, by omega, by simp, by simp⟩
      · rw [if_neg hlo] at he
        simp at he

theorem Re.run_sound : ∀ (re : Re) (c e : Cursor), e ∈ re.run c →
    ∃ t, c.rest = t ++ e.rest ∧ re.Lang t := by
  intro re
  induction re with
  | cls p =>
    intro c e he
    simp only [Re.run] at he
    cases hr : c.rest with
    | nil =>
      rw [hr] at he
      simp at he
    | cons x r =>
      rw [hr] at he
      dsimp only at he
      by_cases hp : p x = true
      · rw [if_pos hp] at he
        have : e = ⟨some x, r⟩ := by simpa using he
        subst this
        exact ⟨[x], rfl, x, rfl, hp⟩
      · rw [if_neg hp] at he
        simp at he
  | wordB =>
    intro c e he
    simp only [Re.run] at he
    split_ifs at he
    · have : e = c := by simpa using he
      subst this
      exact ⟨[], rfl, rfl⟩
    · simp at he
  | seq a b iha ihb =>
    intro c e he
    simp only [Re.run, List.mem_flatMap] at he
    obtain ⟨d, hd, he⟩ := he
    obtain ⟨t1, h1, hl1⟩ := iha c d hd
    obtain ⟨t2, h2, hl2⟩ := ihb d e he
    exact ⟨t1 ++ t2, by rw [h1, h2, List.append_assoc], t1, t2, rfl, hl1, hl2⟩
  | alt a b iha ihb =>
    intro c e he
    simp only [Re.run, List.mem_append] at he
    rcases he with he | he
    · obtain ⟨t, h, hl⟩ := iha c e he
      exact ⟨t, h, Or.inl hl⟩
    · obtain ⟨t, h, hl⟩ := ihb c e he
      exact ⟨t, h, Or.inr hl⟩
  | rep lo hi a iha =>
    intro c e he
    simp only [Re.run] at he
    obtain ⟨ts, h1, h2, h3, h4⟩ := repRun_sound a.run a.Lang iha _ lo c e he
    refine ⟨ts.flatten, h1, ts, rfl, h2, ?_, h4⟩
    intro n hn
    rw [hn] at h3
    exact h3

theorem Re.Lang_within (P : Char → Bool) : ∀ (re : Re), re.within P →
    ∀ t, re.Lang t → ∀ x ∈ t, P x = true := by
  intro re
  induction re with
  | cls p =>
    intro h t ht x hx
    obtain ⟨y, rfl, hy⟩ := ht
    have : x = y := by simpa using hx
    rw [this]
    exact h y hy
  | wordB =>
    intro _ t ht x hx
    simp only [Re.Lang] at ht
    rw [ht] at hx
    simp at hx
  | seq a b iha ihb =>
    intro h t ht x hx
    obtain ⟨t1, t2, rfl, h1, h2⟩ := ht
    rcases List.mem_append.mp hx with hx | hx
    · exact iha h.1 t1 h1 x hx
    · exact ihb h.2 t2 h2 x hx
  | alt a b iha ihb =>
    intro h t ht x hx
    rcases ht with ht | ht
    · exact iha h.1 t ht x hx
    · exact ihb h.2 t ht x hx
  | rep lo hi a iha =>
    intro h t ht x hx
    obtain ⟨ts, rfl, -, -, h4⟩ := ht
    obtain ⟨u, hu, hxu⟩ := List.mem_flatten.mp hx
    exact iha h u (h4 u hu) x hxu

theorem scan_sound (re : Re) : ∀ (s : List Char) (prev : Option Char) (skip : Nat) (m : List Char),
    m ∈ scan re prev s skip → ∃ pre post, s = pre ++ m ++ post ∧ re.Lang m := by
  intro s
  induction s with
  | nil =>
    intro prev skip m hm
    simp only [scan] at hm
    cases hh : (re.run ⟨prev, []⟩).head? with
    | none =>
      rw [hh] at hm
      simp at hm
    | some e =>
      rw [hh] at hm
      have hm' : m = [] := by simpa using hm
      subst hm'
      obtain ⟨t, ht, hl⟩ := re.run_sound ⟨prev, []⟩ e (List.mem_of_mem_head? hh)
      have ht' : t = [] := by
        have := ht.symm
        simp only [List.append_eq_nil] at this
        exact this.1
      subst ht'
      exact ⟨[], [], rfl, hl⟩
  | cons x r ih =>
    intro prev skip m hm
    have tail : ∀ k, m ∈ scan re (some x) r k → ∃ pre post, x :: r = pre ++ m ++ post ∧ re.Lang m := by
      intro k hk
      obtain ⟨pre, post, h, hl⟩ := ih (some x) k m hk
      exact ⟨x :: pre, post, by rw [h]; simp, hl⟩
    cases skip with
    | succ k =>
      simp only [scan] at hm
      exact tail k hm
    | zero =>
      simp only [scan] at hm
      cases hh : (re.run ⟨prev, x :: r⟩).head? with
      | none =>
        rw [hh] at hm
        exact tail 0 hm
      | some e =>
        rw [hh] at hm
        dsimp only at hm
        rcases List.mem_cons.mp hm with hm | hm
        · obtain ⟨t, ht, hl⟩ := re.run_sound ⟨prev, x :: r⟩ e (List.mem_of_mem_head? hh)
          dsimp only at ht
          have : m = t := by
            rw [hm, ht]
            simp
          subst this
          exact ⟨[], e.rest, by rw [ht]; simp, hl⟩
        · exact tail _ hm

theorem moneyRe_Lang {t : List Char} (h : moneyRe.Lang t) : moneyAlt.Lang t := by
  obtain ⟨t1, t2, rfl, h1, t3, t4, rfl, h3, h4⟩ := h
  simp only [Re.Lang] at h1 h4
  subst h1
  subst h4
  simpa using h3

theorem moneyMatches_sound {text : List Char} {ms : List (List Char)}
    (h : moneyMatches text = some ms) :
    ms ≠ [] ∧ ∀ m ∈ ms, ∃ pre post, normalize text = pre ++ m ++ post ∧ moneyAlt.Lang m := by
  unfold moneyMatches matchAll at h
  cases hs : scan moneyRe none (normalize text) 0 with
  | nil =>
    rw [hs] at h
    simp at h
  | cons a l =>
    rw [hs] at h
    have : a :: l = ms := by simpa using h
    subst this
    refine ⟨by simp, ?_⟩
    intro m hm
    rw [← hs] at hm
    obtain ⟨pre, post, h1, h2⟩ := scan_sound moneyRe _ _ _ m hm
    exact ⟨pre, post, h1, moneyRe_Lang h2⟩

/-! ## What a match of the money pattern looks like -/

theorem not_isSpace_of_isDigit {x : Char} (h : isDigit x = true) : isSpace x = false := by
  simp only [isDigit, Bool.and_eq_true, decide_eq_true_eq] at h
  have h1 : 48 ≤ x.toNat := h.1
  have h2 : x.toNat ≤ 57 := h.2
  simp only [isSpace, Bool.or_eq_false_iff, Bool.and_eq_false_iff, decide_eq_false_iff_not]
  omega

theorem filter_notSpace_digits {t : List Char} (h : ∀ x ∈ t, isDigit x = true) :
    t.filter (fun c => !isSpace c) = t := by
  rw [List.filter_eq_self]
  intro x hx
  simp [not_isSpace_of_isDigit (h x hx)]

theorem rep_digit_Lang {lo : Nat} {hi : Option Nat} {t : List Char}
    (h : (Re.rep lo hi digit).Lang t) :
    (∀ x ∈ t, isDigit x = true) ∧ lo ≤ t.length ∧ ∀ n, hi = some n → t.length ≤ n := by
  have hall : ∀ x ∈ t, isDigit x = true :=
    Re.Lang_within isDigit (Re.rep lo hi digit) (fun x hx => hx) t h
  obtain ⟨ts, rfl, h1, h2, h3⟩ := h
  have hlen : ts.flatten.length = ts.length := by
    clear h1 h2 hall
    induction ts with
    | nil => rfl
    | cons a l ih =>
      obtain ⟨y, hy, -⟩ := h3 a (List.mem_cons_self a l)
      rw [List.flatten_cons, List.length_append, ih (fun x hx => h3 x (List.mem_cons_of_mem a hx)), hy]
      simp
      omega
  rw [hlen]
  exact ⟨hall, h1, h2⟩

theorem cents_Lang {t : List Char} (h : (Re.seq dot (.rep 2 (some 2) digit)).Lang t) :
    ∃ a b, isDigit a = true ∧ isDigit b = true ∧ t = ['.', a, b] := by
  obtain ⟨t1, t2, rfl, ⟨x, rfl, hx⟩, h2⟩ := h
  obtain ⟨hd, hlo, hhi⟩ := rep_digit_Lang h2
  have hlen : t2.length = 2 := le_antisymm (hhi 2 rfl) hlo
  have hx' : x = '.' := by simpa using hx
  subst hx'
  match t2, hlen, hd with
  | [a, b], _, hd => exact ⟨a, b, hd a (by simp), hd b (by simp), rfl⟩

theorem groups_filter {lo : Nat} {t : List Char}
    (h : (Re.rep lo none (.seq space (.rep 3 (some 3) digit))).Lang t) :
    ∀ x ∈ t.filter (fun c => !isSpace c), isDigit x = true := by
  have hall := Re.Lang_within (fun c => isDigit c || isSpace c)
    (Re.rep lo none (.seq space (.rep 3 (some 3) digit)))
    ⟨fun x hx => by simp [show isSpace x = true from hx],
     fun x hx => by simp [show isDigit x = true from hx]⟩ t h
  intro x hx
  rw [List.mem_filter] at hx
  have := hall x hx.1
  have hs : isSpace x = false := by simpa using hx.2
  simpa [hs] using this

theorem moneyAlt_Lang_decimal {t : List Char} (h : moneyAlt.Lang t) :
    Decimal2 (t.filter (fun c => !isSpace c)) := by
  have hdot : isSpace '.' = false := by decide
  rcases h with h | h | h
  · obtain ⟨t1, t', rfl, h1, t2, t3, rfl, h2, h3⟩ := h
    obtain ⟨hd1, hlo1, -⟩ := rep_digit_Lang h1
    obtain ⟨a, b, ha, hb, rfl⟩ := cents_Lang h3
    refine ⟨t1 ++ t2.filter (fun c => !isSpace c), ?_, ?_, Or.inr ⟨a, b, ha, hb, ?_⟩⟩
    · intro hnil
      have : t1 = [] := (List.append_eq_nil.mp hnil).1
      rw [this] at hlo1
      simp at hlo1
    · intro x hx
      rcases List.mem_append.mp hx with hx | hx
      · exact hd1 x hx
      · exact groups_filter h2 x hx
    · rw [List.filter_append, List.filter_append, filter_notSpace_digits hd1]
      simp [hdot, not_isSpace_of_isDigit ha, not_isSpace_of_isDigit hb]
  · obtain ⟨t1, t3, rfl, h1, h3⟩ := h
    obtain ⟨hd1, hlo1, -⟩ := rep_digit_Lang h1
    obtain ⟨a, b, ha, hb, rfl⟩ := cents_Lang h3
    refine ⟨t1, ?_, hd1, Or.inr ⟨a, b, ha, hb, ?_⟩⟩
    · intro hnil
      rw [hnil] at hlo1
      simp at hlo1
    · rw [List.filter_append, filter_notSpace_digits hd1]
      simp [hdot, not_isSpace_of_isDigit ha, not_isSpace_of_isDigit hb]
  · obtain ⟨t1, t2, rfl, h1, h2⟩ := h
    obtain ⟨hd1, hlo1, -⟩ := rep_digit_Lang h1
    refine ⟨t1 ++ t2.filter (fun c => !isSpace c), ?_, ?_, Or.inl ?_⟩
    · intro hnil
      have : t1 = [] := (List.append_eq_nil.mp hnil).1
      rw [this] at hlo1
      simp at hlo1
    · intro x hx
      rcases List.mem_append.mp hx with hx | hx
      · exact hd1 x hx
      · exact groups_filter h2 x hx
    · rw [List.filter_append, filter_notSpace_digits hd1]

/-! ## `parseFloat` on decimal numerals -/

theorem dropWhile_isSpace_digits {ds : List Char} (rest : List Char) (hne : ds ≠ [])
    (hd : ∀ x ∈ ds, isDigit x = true) :
    (ds ++ rest).dropWhile isSpace = ds ++ rest := by
  cases ds with
  | nil => exact absurd rfl hne
  | cons x r =>
    have : isSpace x = false := not_isSpace_of_isDigit (hd x (List.mem_cons_self x r))
    simp [List.dropWhile_cons, this]

theorem parseFloat_integer {ds : List Char} (hne : ds ≠ [])
    (hd : ∀ x ∈ ds, isDigit x = true) : parseFloat ds = some (digitsVal ds : ℚ) := by
  have h0 := dropWhile_isSpace_digits [] hne hd
  rw [List.append_nil] at h0
  have h1 : ds.takeWhile isDigit = ds := List.takeWhile_eq_self_iff.mpr hd
  have h2 : ds.dropWhile isDigit = [] := List.dropWhile_eq_nil_iff.mpr hd
  have h3 : ds.isEmpty = false := by
    cases ds with
    | nil => exact absurd rfl hne
    | cons x r => rfl
  unfold parseFloat
  simp only [h0, h1, h2, h3]
  rfl

theorem parseFloat_decimal {ds : List Char} {a b : Char} (hne : ds ≠ [])
    (hd : ∀ x ∈ ds, isDigit x = true) (ha : isDigit a = true) (hb : isDigit b = true) :
    parseFloat (ds ++ ['.', a, b]) = some ((digitsVal ds : ℚ) + (digitsVal [a, b] : ℚ) / 100) := by
  have hdot : isDigit '.' = false := by decide
  have h0 := dropWhile_isSpace_digits ['.', a, b] hne hd
  have h1 : (ds ++ ['.', a, b]).takeWhile isDigit = ds := by
    rw [List.takeWhile_append_of_pos hd]
    simp [List.takeWhile_cons, hdot]
  have h2 : (ds ++ ['.', a, b]).dropWhile isDigit = ['.', a, b] := by
    rw [List.dropWhile_append_of_pos hd]
    simp [List.dropWhile_cons, hdot]
  have h3 : ds.isEmpty = false := by
    cases ds with
    | nil => exact absurd rfl hne
    | cons x r => rfl
  have h4 : [a, b].takeWhile isDigit = [a, b] := by
    simp [List.takeWhile_cons, ha, hb]
  unfold parseFloat
  simp only [h0, h1, h2, h3, h4]
  norm_num

/-! ## The value of a match and the selection of the maximum -/

theorem toNumber_of_Lang {m : List Char} (h : moneyAlt.Lang m) :
    ∃ n : ℕ, toNumber m = some ((n : ℚ) / 100) := by
  obtain ⟨ds, hne, hd, hu | ⟨a, b, ha, hb, hu⟩⟩ := moneyAlt_Lang_decimal h
  · refine ⟨digitsVal ds * 100, ?_⟩
    unfold toNumber
    rw [hu, parseFloat_integer hne hd]
    congr 1
    push_cast
    ring
  · refine ⟨digitsVal ds * 100 + digitsVal [a, b], ?_⟩
    unfold toNumber
    rw [hu, parseFloat_decimal hne hd ha hb]
    congr 1
    push_cast
    ring

theorem mem_candidates {ms : List (List Char)} {q : ℚ} :
    q ∈ candidates ms ↔ ∃ m ∈ ms, toNumber m = some q ∧ 0 < q := by
  unfold candidates
  rw [List.mem_filterMap]
  constructor
  · rintro ⟨o, ho, hq⟩
    obtain ⟨m, hm, rfl⟩ := List.mem_map.mp ho
    cases hn : toNumber m with
    | none =>
      rw [hn] at hq
      simp at hq
    | some w =>
      rw [hn] at hq
      dsimp only at hq
      by_cases hw : 0 < w
      · rw [if_pos hw] at hq
        have : w = q := by simpa using hq
        subst this
        exact ⟨m, hm, hn, hw⟩
      · rw [if_neg hw] at hq
        simp at hq
  · rintro ⟨m, hm, hn, hq⟩
    refine ⟨some q, List.mem_map.mpr ⟨m, hm, hn⟩, ?_⟩
    dsimp only
    rw [if_pos hq]

theorem foldl_max_spec (qs : List ℚ) : ∀ q : ℚ,
    qs.foldl max q ∈ q :: qs ∧ ∀ x ∈ q :: qs, x ≤ qs.foldl max q := by
  induction qs with
  | nil =>
    intro q
    simp
  | cons a l ih =>
    intro q
    obtain ⟨h1, h2⟩ := ih (max q a)
    simp only [List.foldl_cons]
    refine ⟨?_, ?_⟩
    · rcases List.mem_cons.mp h1 with h | h
      · rw [h]
        rcases max_choice q a with h' | h'
        · rw [h']
          simp
        · rw [h']
          simp
      · simp [h]
    · intro x hx
      rcases List.mem_cons.mp hx with h | h
      · rw [h]
        exact le_trans (le_max_left q a) (h2 _ (List.mem_cons_self _ _))
      · rcases List.mem_cons.mp h with h | h
        · rw [h]
          exact le_trans (le_max_right q a) (h2 _ (List.mem_cons_self _ _))
        · exact h2 x (List.mem_cons_of_mem _ h)

theorem moneyMatches_nil : moneyMatches [] = none := by decide

theorem parseAmountFromText_of_matches (engine : Engine) {text : List Char}
    {ms : List (List Char)} (h : moneyMatches text = some ms) :
    parseAmountFromText engine text =
      match candidates ms with
      | [] => .returns none
      | q :: qs =>
          if engine.maxArgs < (q :: qs).length then .throws engine.rangeErrorMessage
          else .returns (some (qs.foldl max q)) := by
  unfold parseAmountFromText spreadMax
  cases text with
  | nil =>
    rw [moneyMatches_nil] at h
    simp at h
  | cons x r =>
    simp only [List.isEmpty_cons, Bool.false_eq_true, if_false, h]
    cases candidates ms with
    | nil => rfl
    | cons q qs =>
      dsimp only
      by_cases hlim : engine.maxArgs < (q :: qs).length
      · rw [if_pos hlim, if_pos hlim]
      · rw [if_neg hlim, if_neg hlim]

theorem parseAmountFromText_no_match (engine : Engine) {text : List Char}
    (h : moneyMatches text = none) : parseAmountFromText engine text = .returns none := by
  unfold parseAmountFromText
  rw [h]
  split_ifs <;> rfl

theorem parseAmountFromText_within (engine : Engine) {text : List Char}
    {ms : List (List Char)} (h : moneyMatches text = some ms)
    (hlim : (candidates ms).length ≤ engine.maxArgs) :
    parseAmountFromText engine text =
      .returns (match candidates ms with
        | [] => none
        | q :: qs => some (qs.foldl max q)) := by
  rw [parseAmountFromText_of_matches engine h]
  cases hc : candidates ms with
  | nil => rfl
  | cons q qs =>
    rw [hc] at hlim
    dsimp only
    rw [if_neg (not_lt.mpr hlim)]

theorem parseAmountFromText_single (engine : Engine) {text : List Char}
    {ms : List (List Char)} {q : ℚ} (h : moneyMatches text = some ms)
    (hc : candidates ms = [q]) : parseAmountFromText engine text = .returns (some q) := by
  rw [parseAmountFromText_within engine h (by
    rw [hc]
    exact engine.maxArgs_pos), hc]
  rfl

theorem parseAmountFromText_throws (engine : Engine) {text : List Char}
    {ms : List (List Char)} (h : moneyMatches text = some ms)
    (hlim : engine.maxArgs < (candidates ms).length) :
    parseAmountFromText engine text = .throws engine.rangeErrorMessage := by
  rw [parseAmountFromText_of_matches engine h]
  cases hc : candidates ms with
  | nil =>
    rw [hc] at hlim
    simp at hlim
  | cons q qs =>
    rw [hc] at hlim
    dsimp only
    rw [if_pos hlim]

theorem parseAmountFromText_some {engine : Engine} {text : List Char} {v : ℚ}
    (h : parseAmountFromText engine text = .returns (some v)) :
    ∃ ms, moneyMatches text = some ms ∧ 0 < v ∧ (∃ m ∈ ms, toNumber m = some v)
      ∧ (∀ q ∈ candidates ms, q ≤ v) ∧ (candidates ms).length ≤ engine.maxArgs := by
  cases hm : moneyMatches text with
  | none =>
    rw [parseAmountFromText_no_match engine hm] at h
    simp at h
  | some ms =>
    rw [parseAmountFromText_of_matches engine hm] at h
    cases hc : candidates ms with
    | nil =>
      rw [hc] at h
      simp at h
    | cons q qs =>
      rw [hc] at h
      dsimp only at h
      by_cases hlim : engine.maxArgs < (q :: qs).length
      · rw [if_pos hlim] at h
        simp at h
      · rw [if_neg hlim] at h
        have hv : qs.foldl max q = v := by simpa using h
        obtain ⟨h1, h2⟩ := foldl_max_spec qs q
        rw [hv] at h1 h2
        rw [← hc] at h1 h2
        obtain ⟨m, hmem, hn, hpos⟩ := mem_candidates.mp h1
        refine ⟨ms, rfl, hpos, ⟨m, hmem, hn⟩, h2, ?_⟩
        rw [hc]
        exact not_lt.mp hlim

theorem parseAmountFromText_cents {engine : Engine} {text : List Char} {v : ℚ}
    (h : parseAmountFromText engine text = .returns (some v)) :
    0 < v ∧ ∃ n : ℕ, v = (n : ℚ) / 100 := by
  obtain ⟨ms, hms, hpos, ⟨m, hm, hn⟩, -, -⟩ := parseAmountFromText_some h
  obtain ⟨-, -, -, hl⟩ := (moneyMatches_sound hms).2 m hm
  obtain ⟨n, hn'⟩ := toNumber_of_Lang hl
  rw [hn] at hn'
  exact ⟨hpos, n, by simpa using hn'⟩

theorem toFixed2_cents (n : ℕ) : toFixed2 ((n : ℚ) / 100) = (n : ℚ) / 100 := by
  unfold toFixed2
  have h0 : ¬ ((n : ℚ) / 100 < 0) := by
    have : (0 : ℚ) ≤ (n : ℚ) / 100 := by positivity
    exact not_lt.mpr this
  rw [if_neg h0]
  have h1 : (n : ℚ) / 100 * 100 + 1 / 2 = ((n : ℤ) : ℚ) + 1 / 2 := by
    push_cast
    ring
  have h2 : ⌊((n : ℤ) : ℚ) + 1 / 2⌋ = (n : ℤ) := by
    rw [Int.floor_eq_iff]
    constructor
    · linarith
    · linarith
  rw [h1, h2]
  push_cast
  rfl

/-! ## `parseAmountFromText`: the claims -/

/-- C1, as the code has it. When the scan of the pattern finds matches in the
text, at least one of them with a non-zero value, and the matches of positive
value are no more than the arguments the engine accepts in one call,
`parseAmountFromText` returns the maximum of the values of all matches: the
result is the value of some match and the value of every match is at most the
result. -/
theorem parseAmountFromText_max (engine : Engine) (text : List Char) (ms : List (List Char))
    (hms : moneyMatches text = some ms)
    (hpos : ∃ m ∈ ms, ∃ q, toNumber m = some q ∧ q ≠ 0)
    (hlim : (candidates ms).length ≤ engine.maxArgs) :
    ∃ v, parseAmountFromText engine text = .returns (some v)
      ∧ (∃ m ∈ ms, toNumber m = some v)
      ∧ ∀ m ∈ ms, ∃ w, toNumber m = some w ∧ w ≤ v := by
  have hval : ∀ m ∈ ms, ∃ n : ℕ, toNumber m = some ((n : ℚ) / 100) := by
    intro m hm
    obtain ⟨-, -, -, hl⟩ := (moneyMatches_sound hms).2 m hm
    exact toNumber_of_Lang hl
  obtain ⟨m0, hm0, q0, hq0, hne⟩ := hpos
  have hq0pos : 0 < q0 := by
    obtain ⟨n, hn⟩ := hval m0 hm0
    rw [hq0] at hn
    have hq : q0 = (n : ℚ) / 100 := by simpa using hn
    have : (0 : ℚ) ≤ (n : ℚ) / 100 := by positivity
    rw [← hq] at this
    exact lt_of_le_of_ne this (Ne.symm hne)
  have hmem : q0 ∈ candidates ms := mem_candidates.mpr ⟨m0, hm0, hq0, hq0pos⟩
  rw [parseAmountFromText_within engine hms hlim]
  cases hc : candidates ms with
  | nil =>
    rw [hc] at hmem
    simp at hmem
  | cons q qs =>
    obtain ⟨h1, h2⟩ := foldl_max_spec qs q
    rw [← hc] at h1 h2
    refine ⟨qs.foldl max q, rfl, ?_, ?_⟩
    · obtain ⟨m, hm, hn, -⟩ := mem_candidates.mp h1
      exact ⟨m, hm, hn⟩
    · intro m hm
      obtain ⟨n, hn⟩ := hval m hm
      refine ⟨_, hn, ?_⟩
      by_cases hpos : 0 < (n : ℚ) / 100
      · exact h2 _ (mem_candidates.mpr ⟨m, hm, hn, hpos⟩)
      · exact le_trans (not_lt.mp hpos) (le_trans (le_of_lt hq0pos) (h2 q0 hmem))

theorem parseAmountFromText_max_witness :
    moneyMatches "12.50 15.00 8.75".toList
        = some ["12.50".toList, "15.00".toList, "8.75".toList]
    ∧ parseAmountFromText sampleEngine "12.50 15.00 8.75".toList = .returns (some 15)
    ∧ ∃ v, parseAmountFromText sampleEngine "12.50 15.00 8.75".toList = .returns (some v)
      ∧ (∃ m ∈ ["12.50".toList, "15.00".toList, "8.75".toList], toNumber m = some v)
      ∧ ∀ m ∈ ["12.50".toList, "15.00".toList, "8.75".toList], ∃ w, toNumber m = some w ∧ w ≤ v :=
  ⟨by decide, by decide!,
    parseAmountFromText_max sampleEngine "12.50 15.00 8.75".toList
      ["12.50".toList, "15.00".toList, "8.75".toList] (by decide)
      ⟨"15.00".toList, by decide, 15, by decide!, by decide!⟩ (by decide!)⟩

/-- C1, as stated, fails. The text `0.00` holds a monetary-pattern substring, the
pattern matches it and its value is the maximum, 0, yet the result is absent.
The text `x12.50` holds the monetary-pattern substring `12.50`, of value 12.50,
yet the pattern does not match (no word boundary stands before `12.50`) and the
result is absent. -/
theorem parseAmountFromText_zero_match :
    (HasMoneyPattern "0.00".toList
      ∧ moneyMatches "0.00".toList = some ["0.00".toList]
      ∧ toNumber "0.00".toList = some 0
      ∧ parseAmountFromText sampleEngine "0.00".toList = .returns none)
    ∧ (HasMoneyPattern "x12.50".toList
      ∧ toNumber "12.50".toList = some (1250 / 100)
      ∧ moneyMatches "x12.50".toList = none
      ∧ parseAmountFromText sampleEngine "x12.50".toList = .returns none) := by
  have hcls : ∀ c : Char, isDigit c = true → ∀ x ∈ [[c]], digit.Lang x := by
    intro c hc x hx
    have : x = [c] := by simpa using hx
    exact ⟨c, this, hc⟩
  have hcls2 : ∀ c d : Char, isDigit c = true → isDigit d = true →
      ∀ x ∈ [[c], [d]], digit.Lang x := by
    intro c d hc hd x hx
    rcases List.mem_cons.mp hx with h | h
    · exact ⟨c, h, hc⟩
    · have : x = [d] := by simpa using h
      exact ⟨d, this, hd⟩
  refine ⟨⟨⟨[], "0.00".toList, [], by decide, ?_⟩, by decide, by decide!, by decide!⟩,
    ⟨⟨['x'], "12.50".toList, [], by decide, ?_⟩, by decide!, by decide, by decide!⟩⟩
  · right
    left
    refine ⟨['0'], ['.', '0', '0'], rfl, ?_, ?_⟩
    · exact ⟨[['0']], rfl, by decide, by simp, hcls '0' (by decide)⟩
    · refine ⟨['.'], ['0', '0'], rfl, ⟨'.', rfl, by decide⟩, ?_⟩
      exact ⟨[['0'], ['0']], rfl, by decide, by simp, hcls2 '0' '0' (by decide) (by decide)⟩
  · right
    left
    refine ⟨['1', '2'], ['.', '5', '0'], rfl, ?_, ?_⟩
    · exact ⟨[['1'], ['2']], rfl, by decide, by simp, hcls2 '1' '2' (by decide) (by decide)⟩
    · refine ⟨['.'], ['5', '0'], rfl, ⟨'.', rfl, by decide⟩, ?_⟩
      exact ⟨[['5'], ['0']], rfl, by decide, by simp, hcls2 '5' '0' (by decide) (by decide)⟩

theorem digit_of_HasMoneyPattern {text : List Char} (h : HasMoneyPattern text) :
    ∃ x ∈ text, isDigit x = true := by
  obtain ⟨pre, t, post, hsplit, hl⟩ := h
  obtain ⟨ds, hne, hd, hu⟩ := moneyAlt_Lang_decimal hl
  cases ds with
  | nil => exact absurd rfl hne
  | cons y r =>
    have hy : isDigit y = true := hd y (List.mem_cons_self y r)
    have hyf : y ∈ t.filter (fun c => !isSpace c) := by
      rcases hu with hu | ⟨a, b, -, -, hu⟩ <;> rw [hu] <;> simp
    have hyt : y ∈ normalize text := by
      rw [hsplit]
      simp [(List.mem_filter.mp hyf).1]
    unfold normalize at hyt
    obtain ⟨c, hc, hcy⟩ := List.mem_map.mp hyt
    by_cases hsep : (c == ',' || isSpace c) = true
    · rw [if_pos hsep] at hcy
      rw [← hcy] at hy
      exact absurd hy (by decide)
    · rw [if_neg hsep] at hcy
      rw [← hcy] at hy
      exact ⟨c, hc, hy⟩

/-- C2. A text with no monetary-pattern substring yields absence (never zero or
another default, and nothing is thrown), and so does the empty string. -/
theorem parseAmountFromText_no_pattern (engine : Engine) (text : List Char)
    (h : ¬ HasMoneyPattern text) :
    parseAmountFromText engine text = .returns none
    ∧ parseAmountFromText engine [] = .returns none := by
  refine ⟨?_, rfl⟩
  cases hm : moneyMatches text with
  | none => exact parseAmountFromText_no_match engine hm
  | some ms =>
    exfalso
    obtain ⟨hne, hall⟩ := moneyMatches_sound hm
    cases ms with
    | nil => exact hne rfl
    | cons m l =>
      obtain ⟨pre, post, hsplit, hl⟩ := hall m (List.mem_cons_self m l)
      exact h ⟨pre, m, post, hsplit, hl⟩

theorem parseAmountFromText_no_pattern_witness :
    ¬ HasMoneyPattern "no numbers here".toList
    ∧ parseAmountFromText sampleEngine "no numbers here".toList = .returns none
    ∧ parseAmountFromText sampleEngine [] = .returns none :=
  have h : ¬ HasMoneyPattern "no numbers here".toList := fun hp => by
    obtain ⟨x, hx, hd⟩ := digit_of_HasMoneyPattern hp
    revert x
    decide
  ⟨h, parseAmountFromText_no_pattern sampleEngine "no numbers here".toList h⟩

theorem normalize_idem (text : List Char) : normalize (normalize text) = normalize text := by
  unfold normalize
  rw [List.map_map]
  apply List.map_congr_left
  intro c _
  by_cases hsep : (c == ',' || isSpace c) = true
  · simp only [Function.comp, if_pos hsep]
    decide
  · simp only [Function.comp, if_neg hsep]

/-- C4, as the code has it. Normalization replaces each comma and each
white-space character by one space: `parseAmountFromText` returns on every text
what it returns on the text with each such character replaced, so `1,234.56`
and `1 234.56` both yield 1234.56. -/
theorem parseAmountFromText_normalize (engine : Engine) (text : List Char) :
    parseAmountFromText engine text = parseAmountFromText engine (normalize text)
    ∧ parseAmountFromText engine "1,234.56".toList = .returns (some (123456 / 100))
    ∧ parseAmountFromText engine "1 234.56".toList = .returns (some (123456 / 100)) := by
  refine ⟨?_,
    parseAmountFromText_single engine
      (show moneyMatches "1,234.56".toList = some ["1 234.56".toList] by decide) (by decide!),
    parseAmountFromText_single engine
      (show moneyMatches "1 234.56".toList = some ["1 234.56".toList] by decide) (by decide!)⟩
  unfold parseAmountFromText moneyMatches
  rw [normalize_idem]
  cases text with
  | nil => rfl
  | cons x r => rfl

/-- C4, as stated, fails: runs are not collapsed. `1, 234.56` becomes
`1  234.56` with two spaces and yields 234.56, while the text with the run
collapsed, `1 234.56`, yields 1234.56. -/
theorem parseAmountFromText_run_not_collapsed :
    collapseRuns "1, 234.56".toList = "1 234.56".toList
    ∧ normalize "1, 234.56".toList = "1  234.56".toList
    ∧ parseAmountFromText sampleEngine "1, 234.56".toList = .returns (some (23456 / 100))
    ∧ parseAmountFromText sampleEngine (collapseRuns "1, 234.56".toList)
        = .returns (some (123456 / 100)) := by
  refine ⟨by decide, by decide, by decide!, by decide!⟩

/-! ## The upload workflow: when a transaction is submitted -/

theorem uploadAttempt_submitted (engine : Engine) (fetch : File → FetchResult)
    (addTransaction : TransactionDraft → Except Str Unit) (now : Str) (file : File)
    (s : ModalState) (d : TransactionDraft)
    (h : d ∈ submitted (uploadAttempt engine fetch addTransaction now file s).2) :
    ∃ data_text error amount, fetch file = .response true (.object data_text error)
      ∧ parseAmountFromText engine (orElse data_text []) = .returns (some amount)
      ∧ d = mkDraft file amount now := by
  cases hf : fetch file with
  | networkFault msg =>
    simp [uploadAttempt, hf, submitted] at h
  | response ok body =>
    cases ok with
    | false =>
      simp [uploadAttempt, hf, submitted] at h
    | true =>
      cases body with
      | invalid msg =>
        simp [uploadAttempt, hf, submitted] at h
      | object data_text error =>
        rw [(uploadAttempt_success engine fetch addTransaction now file s data_text error
          hf).2.2] at h
        cases hp : parseAmountFromText engine (orElse data_text []) with
        | throws msg =>
          rw [hp] at h
          simp [submitted] at h
        | returns r =>
          cases r with
          | none =>
            rw [hp] at h
            simp [submitted] at h
          | some a =>
            rw [hp] at h
            dsimp only at h
            by_cases ha : a ≠ 0
            · rw [if_pos ha] at h
              have : d = mkDraft file a now := by simpa [submitted] using h
              exact ⟨data_text, error, a, rfl, hp, this⟩
            · rw [if_neg ha] at h
              simp [submitted] at h

theorem handleUpload_effects (engine : Engine) (fetch : File → FetchResult)
    (addTransaction : TransactionDraft → Except Str Unit) (now : Str) (s : ModalState) :
    (s.selectedFile = none ∧ submitted (handleUpload engine fetch addTransaction now s).2 = [])
    ∨ ∃ file s', s.selectedFile = some file
        ∧ (handleUpload engine fetch addTransaction now s).2
            = (uploadAttempt engine fetch addTransaction now file s').2 := by
  unfold handleUpload
  dsimp only
  cases hsel : s.selectedFile with
  | none =>
    left
    exact ⟨rfl, rfl⟩
  | some file =>
    right
    refine ⟨file, (⟨some file, s.previewUrl, true, [], []⟩ : ModalState), rfl, ?_⟩
    dsimp only
    generalize uploadAttempt engine fetch addTransaction now file _ = r
    rcases r with ⟨⟨s', m⟩, r2⟩
    cases m <;> rfl

/-- C5. `addTransaction` is called only after a successful upload whose text
yields a strictly positive amount: whenever `handleUpload` hands a draft to
`addTransaction`, a file was selected, its upload was answered OK with a JSON
body, `parseAmountFromText` returned a strictly positive amount on the text of
that body, and the amount of the draft is strictly positive.  So after a failed
upload, or a successful one without an extractable amount, nothing is
submitted. -/
theorem addTransaction_only_on_amount (engine : Engine) (fetch : File → FetchResult)
    (addTransaction : TransactionDraft → Except Str Unit) (now : Str) (s : ModalState)
    (d : TransactionDraft)
    (h : Effect.addTransaction d ∈ (handleUpload engine fetch addTransaction now s).2) :
    ∃ file data_text error amount, s.selectedFile = some file
      ∧ fetch file = .response true (.object data_text error)
      ∧ parseAmountFromText engine (orElse data_text []) = .returns (some amount)
      ∧ 0 < amount ∧ 0 < d.amount := by
  have hd : d ∈ submitted (handleUpload engine fetch addTransaction now s).2 := by
    unfold submitted
    rw [List.mem_filterMap]
    exact ⟨_, h, rfl⟩
  rcases handleUpload_effects engine fetch addTransaction now s with ⟨-, h0⟩ | ⟨file, s', hs, he⟩
  · rw [h0] at hd
    simp at hd
  · rw [he] at hd
    obtain ⟨data_text, error, a, hf, hp, hdraft⟩ := uploadAttempt_submitted _ _ _ _ _ _ _ hd
    obtain ⟨hpos, n, hn⟩ := parseAmountFromText_cents hp
    refine ⟨file, data_text, error, a, hs, hf, hp, hpos, ?_⟩
    rw [hdraft]
    show 0 < toFixed2 a
    rw [hn, toFixed2_cents, ← hn]
    exact hpos

theorem addTransaction_only_on_amount_witness :
    Effect.addTransaction
        { description := "receipt".toList, amount := 42, category := "Other".toList,
          date := "2024-01-01T00:00:00.000Z".toList, type := "expense".toList,
          paymentMethod := "Cash".toList }
      ∈ (handleUpload sampleEngine (fun _ => .response true (.object (some "Total 42.00".toList) none))
          (fun _ => .error "not logged in".toList) "2024-01-01T00:00:00.000Z".toList
          { initialState with selectedFile := some ⟨"receipt.png".toList, "image/png".toList⟩ }).2
    ∧ ∃ file data_text error amount,
        ({ initialState with
            selectedFile := some ⟨"receipt.png".toList, "image/png".toList⟩ } : ModalState).selectedFile
          = some file
        ∧ (fun _ => FetchResult.response true (.object (some "Total 42.00".toList) none)) file
          = .response true (.object data_text error)
        ∧ parseAmountFromText sampleEngine (orElse data_text []) = .returns (some amount)
        ∧ 0 < amount ∧ 0 < (42 : ℚ) :=
  ⟨by decide!,
    addTransaction_only_on_amount sampleEngine
      (fun _ => .response true (.object (some "Total 42.00".toList) none))
      (fun _ => .error "not logged in".toList) "2024-01-01T00:00:00.000Z".toList
      { initialState with selectedFile := some ⟨"receipt.png".toList, "image/png".toList⟩ }
      { description := "receipt".toList, amount := 42, category := "Other".toList,
        date := "2024-01-01T00:00:00.000Z".toList, type := "expense".toList,
        paymentMethod := "Cash".toList } (by decide!)⟩

/-- C6. After a successful upload whose recognized text `t` yields the amount
`a`, `handleUpload` calls `addTransaction` exactly once, and the draft of that
call has amount `a` (rounding to two decimals does not change it), type
`expense`, category `Other` and payment method `Cash`. -/
theorem handleUpload_submits_once (engine : Engine) (fetch : File → FetchResult)
    (addTransaction : TransactionDraft → Except Str Unit) (now : Str) (s : ModalState)
    (file : File) (t : Str) (error : Option Str) (a : ℚ)
    (hs : s.selectedFile = some file)
    (hf : fetch file = .response true (.object (some t) error))
    (ha : parseAmountFromText engine t = .returns (some a)) :
    submitted (handleUpload engine fetch addTransaction now s).2 =
      [{ description := description file, amount := a, category := "Other".toList, date := now,
         type := "expense".toList, paymentMethod := "Cash".toList }] := by
  have ht : orElse (some t) [] = t := by
    cases t with
    | nil => rfl
    | cons x r => rfl
  obtain ⟨hpos, n, hn⟩ := parseAmountFromText_cents ha
  have h := (handleUpload_success engine fetch addTransaction now file s (some t) error hs hf).2
  rw [ht, ha] at h
  dsimp only at h
  rw [if_pos (ne_of_gt hpos)] at h
  rw [h]
  have hfix : toFixed2 a = a := by rw [hn, toFixed2_cents]
  simp only [submitted, List.filterMap_cons, List.filterMap_nil, mkDraft, hfix]

theorem handleUpload_submits_once_witness :
    parseAmountFromText sampleEngine "Total 42.00".toList = .returns (some 42)
    ∧ submitted (handleUpload sampleEngine (fun _ => .response true (.object (some "Total 42.00".toList) none))
          (fun _ => .error "not logged in".toList) "2024-01-01T00:00:00.000Z".toList
          { initialState with selectedFile := some ⟨"receipt.png".toList, "image/png".toList⟩ }).2 =
      [{ description := description ⟨"receipt.png".toList, "image/png".toList⟩, amount := 42,
         category := "Other".toList, date := "2024-01-01T00:00:00.000Z".toList,
         type := "expense".toList, paymentMethod := "Cash".toList }] :=
  ⟨by decide!,
    handleUpload_submits_once sampleEngine (fun _ => .response true (.object (some "Total 42.00".toList) none))
      (fun _ => .error "not logged in".toList) "2024-01-01T00:00:00.000Z".toList
      { initialState with selectedFile := some ⟨"receipt.png".toList, "image/png".toList⟩ }
      ⟨"receipt.png".toList, "image/png".toList⟩ "Total 42.00".toList none 42 rfl rfl (by decide!)⟩

/-! ## The first match of a greedy repetition -/

theorem prevAfter_nil (p : Option Char) : prevAfter p [] = p := by
  simp [prevAfter]

theorem prevAfter_append (p : Option Char) (t u : List Char) :
    prevAfter p (t ++ u) = prevAfter (prevAfter p t) u := by
  unfold prevAfter
  rw [List.getLast?_append]
  cases u.getLast? <;> simp

theorem flatMap_head {α β : Type} {l : List α} {f : α → List β} {x : α} {y : β}
    (hl : ∃ tl, l = x :: tl) (hf : ∃ tl, f x = y :: tl) : ∃ tl, l.flatMap f = y :: tl := by
  obtain ⟨tl, rfl⟩ := hl
  obtain ⟨tl', h⟩ := hf
  exact ⟨tl' ++ tl.flatMap f, by rw [List.flatMap_cons, h, List.cons_append]⟩

theorem repRun_head (m : Cursor → List Cursor) (rest : List Char) :
    ∀ (items : List (List Char)) (lo hi : Nat) (p : Option Char),
      (∀ t ∈ items, ∀ q r, ∃ tl, m ⟨q, t ++ r⟩ = ⟨prevAfter q t, r⟩ :: tl) →
      (items.length = hi ∨ ∀ q, m ⟨q, rest⟩ = []) →
      lo ≤ items.length → items.length ≤ hi →
      ∃ tl, repRun m lo hi ⟨p, items.flatten ++ rest⟩ = ⟨prevAfter p items.flatten, rest⟩ :: tl := by
  intro items
  induction items with
  | nil =>
    intro lo hi p _ hstop hlo _
    have hlo0 : lo = 0 := by simpa using hlo
    subst hlo0
    cases hi with
    | zero => exact ⟨[], by simp [repRun, prevAfter_nil]⟩
    | succ h =>
      rcases hstop with hstop | hstop
      · simp at hstop
      · exact ⟨[], by simp [repRun, prevAfter_nil, hstop]⟩
  | cons t items ih =>
    intro lo hi p hitems hstop hlo hhi
    cases hi with
    | zero => simp at hhi
    | succ h =>
      have hstep := hitems t (List.mem_cons_self t items) p (items.flatten ++ rest)
      have hrec := ih (lo - 1) h (prevAfter p t)
        (fun u hu => hitems u (List.mem_cons_of_mem t hu))
        (hstop.imp (fun hl => by simpa using hl) id)
        (by simp only [List.length_cons] at hlo; omega)
        (by simp only [List.length_cons] at hhi; omega)
      obtain ⟨tl, htl⟩ := flatMap_head hstep hrec
      refine ⟨tl ++ (if lo = 0 then [⟨p, (t :: items).flatten ++ rest⟩] else []), ?_⟩
      simp only [repRun, List.flatten_cons, List.append_assoc, prevAfter_append]
      rw [htl]
      rfl

theorem digit_run_head {x : Char} (hx : isDigit x = true) (q : Option Char) (r : List Char) :
    ∃ tl, digit.run ⟨q, [x] ++ r⟩ = ⟨prevAfter q [x], r⟩ :: tl :=
  ⟨[], by simp [digit, Re.run, hx, prevAfter]⟩

theorem flatten_singletons (ds : List Char) : (ds.map (fun x => [x])).flatten = ds := by
  induction ds with
  | nil => rfl
  | cons x r ih => simp [ih]

theorem digits_head (ds rest : List Char) (lo hi : Nat) (p : Option Char)
    (hd : ∀ x ∈ ds, isDigit x = true)
    (hstop : ds.length = hi ∨ ∀ x, rest.head? = some x → isDigit x = false)
    (hlo : lo ≤ ds.length) (hhi : ds.length ≤ hi) :
    ∃ tl, repRun digit.run lo hi ⟨p, ds ++ rest⟩ = ⟨prevAfter p ds, rest⟩ :: tl := by
  have h := repRun_head digit.run rest (ds.map (fun x => [x])) lo hi p
    (by
      intro t ht q r
      obtain ⟨x, hx, rfl⟩ := List.mem_map.mp ht
      exact digit_run_head (hd x hx) q r)
    (by
      rcases hstop with h | h
      · left
        simpa using h
      · right
        intro q
        cases rest with
        | nil => simp [digit, Re.run]
        | cons y r => simp [digit, Re.run, h y rfl])
    (by simpa using hlo) (by simpa using hhi)
  rw [flatten_singletons] at h
  exact h

/-! ## Grouped thousands are matched whole -/

theorem group_head {g : List Char} (hlen : g.length = 3) (hg : ∀ x ∈ g, isDigit x = true)
    (q : Option Char) (r : List Char) :
    ∃ tl, (Re.seq space (.rep 3 (some 3) digit)).run ⟨q, (' ' :: g) ++ r⟩
      = ⟨prevAfter q (' ' :: g), r⟩ :: tl := by
  obtain ⟨tl, h⟩ := digits_head g r 3 3 (some ' ') hg (Or.inl hlen) (by omega) (by omega)
  refine ⟨tl, ?_⟩
  have hp : prevAfter q (' ' :: g) = prevAfter (some ' ') g := by
    rw [show ' ' :: g = [' '] ++ g from rfl, prevAfter_append]
    rfl
  rw [hp, ← h]
  have hs : isSpace ' ' = true := by decide
  simp [Re.run, space, hs]

theorem group_stop {rest : List Char} (h : ∀ x, rest.head? = some x → isSpace x = false)
    (q : Option Char) : (Re.seq space (.rep 3 (some 3) digit)).run ⟨q, rest⟩ = [] := by
  cases rest with
  | nil => simp [Re.run, space]
  | cons y r => simp [Re.run, space, h y rfl]

theorem groups_head (gs : List (List Char)) (rest : List Char) (lo : Nat) (p : Option Char)
    (hg : ∀ g ∈ gs, g.length = 3 ∧ ∀ x ∈ g, isDigit x = true)
    (hrest : ∀ x, rest.head? = some x → isSpace x = false) (hlo : lo ≤ gs.length) :
    ∃ tl, (Re.rep lo none (.seq space (.rep 3 (some 3) digit))).run
        ⟨p, (gs.map (fun g => ' ' :: g)).flatten ++ rest⟩
      = ⟨prevAfter p (gs.map (fun g => ' ' :: g)).flatten, rest⟩ :: tl := by
  have hlen : gs.length ≤ ((gs.map (fun g => ' ' :: g)).flatten ++ rest).length := by
    clear hg hlo
    induction gs with
    | nil => simp
    | cons g l ih =>
      simp only [List.map_cons, List.flatten_cons, List.length_append, List.length_cons] at ih ⊢
      omega
  have h := repRun_head (Re.seq space (.rep 3 (some 3) digit)).run rest
    (gs.map (fun g => ' ' :: g)) lo ((gs.map (fun g => ' ' :: g)).flatten ++ rest).length p
    (by
      intro t ht q r
      obtain ⟨g, hgm, rfl⟩ := List.mem_map.mp ht
      exact group_head (hg g hgm).1 (hg g hgm).2 q r)
    (Or.inr (group_stop hrest))
    (by simpa using hlo) (by simpa using hlen)
  simpa [Re.run] using h

theorem cents_head {a b : Char} (ha : isDigit a = true) (hb : isDigit b = true)
    (p : Option Char) :
    ∃ tl, (Re.seq dot (.rep 2 (some 2) digit)).run ⟨p, ['.', a, b]⟩ = ⟨some b, []⟩ :: tl := by
  obtain ⟨tl, h⟩ := digits_head [a, b] [] 2 2 (some '.')
    (by
      intro x hx
      rcases List.mem_cons.mp hx with h | h
      · rw [h]
        exact ha
      · have : x = b := by simpa using h
        rw [this]
        exact hb)
    (Or.inl rfl) (by simp) (by simp)
  refine ⟨tl, ?_⟩
  have hp : prevAfter (some '.') [a, b] = some b := by simp [prevAfter]
  rw [hp] at h
  rw [← h]
  simp [Re.run, dot]

theorem groups_last {gs : List (List Char)} (hne : gs ≠ [])
    (hg : ∀ g ∈ gs, g.length = 3 ∧ ∀ x ∈ g, isDigit x = true) (p : Option Char) :
    ∃ y, prevAfter p (gs.map (fun g => ' ' :: g)).flatten = some y ∧ isDigit y = true := by
  obtain ⟨l, g, rfl⟩ : ∃ l g, gs = l ++ [g] := by
    rcases List.eq_nil_or_concat gs with h | ⟨l, g, h⟩
    · exact absurd h hne
    · exact ⟨l, g, by simpa using h⟩
  obtain ⟨hlen, hd⟩ := hg g (by simp)
  match g, hlen, hd with
  | [a, b, c], _, hd =>
    refine ⟨c, ?_, hd c (by simp)⟩
    simp [prevAfter, List.getLast?_append]

theorem isWordChar_of_isDigit {x : Char} (h : isDigit x = true) : isWordChar x = true := by
  simp [isWordChar, h]

theorem moneyRe_run_nil (p : Option Char) : moneyRe.run ⟨p, []⟩ = [] := by
  rw [List.eq_nil_iff_forall_not_mem]
  intro e he
  obtain ⟨t, ht, hl⟩ := moneyRe.run_sound ⟨p, []⟩ e he
  have ht' : t = [] := by
    have := ht.symm
    simp only [List.append_eq_nil] at this
    exact this.1
  subst ht'
  obtain ⟨ds, hne, -, hu | ⟨a, b, -, -, hu⟩⟩ := moneyAlt_Lang_decimal (moneyRe_Lang hl)
  · exact hne (by simpa using hu.symm)
  · simp at hu

theorem scan_skip (re : Re) (hnil : ∀ p, re.run ⟨p, []⟩ = []) :
    ∀ (r : List Char) (p : Option Char) (k : Nat), r.length ≤ k → scan re p r k = [] := by
  intro r
  induction r with
  | nil =>
    intro p k _
    simp [scan, hnil]
  | cons x r ih =>
    intro p k hk
    cases k with
    | zero => simp at hk
    | succ k =>
      simp only [scan]
      exact ih (some x) k (by simpa using hk)

theorem scan_whole (re : Re) (hnil : ∀ p, re.run ⟨p, []⟩ = []) (x : Char) (r : List Char)
    (q : Option Char) (h : ∃ tl, re.run ⟨none, x :: r⟩ = ⟨q, []⟩ :: tl) :
    scan re none (x :: r) 0 = [x :: r] := by
  obtain ⟨tl, h⟩ := h
  simp only [scan, h, List.head?_cons, List.length_nil, Nat.sub_zero]
  rw [scan_skip re hnil r (some x) _ (by simp)]
  simp

theorem moneyRe_head {x y : Char} {r : List Char} (hx : isDigit x = true)
    (hy : isDigit y = true) (h : ∃ tl, moneyAlt.run ⟨none, x :: r⟩ = ⟨some y, []⟩ :: tl) :
    ∃ tl, moneyRe.run ⟨none, x :: r⟩ = ⟨some y, []⟩ :: tl := by
  have h1 : ∃ tl, Re.wordB.run ⟨none, x :: r⟩ = ⟨none, x :: r⟩ :: tl :=
    ⟨[], by simp [Re.run, wordSide, isWordChar_of_isDigit hx]⟩
  have h2 : ∃ tl, Re.wordB.run ⟨some y, []⟩ = ⟨some y, []⟩ :: tl :=
    ⟨[], by simp [Re.run, wordSide, isWordChar_of_isDigit hy]⟩
  exact flatMap_head h1 (flatMap_head h h2)

theorem filter_groups (gs : List (List Char)) (hg : ∀ g ∈ gs, ∀ x ∈ g, isDigit x = true) :
    (gs.map (fun g => ' ' :: g)).flatten.filter (fun c => !isSpace c) = gs.flatten := by
  induction gs with
  | nil => rfl
  | cons g l ih =>
    have hs : isSpace ' ' = true := by decide
    simp only [List.map_cons, List.flatten_cons, List.cons_append]
    rw [List.filter_cons, List.filter_append,
      ih (fun g' hg' => hg g' (List.mem_cons_of_mem g hg')),
      filter_notSpace_digits (hg g (List.mem_cons_self g l))]
    simp [hs]

theorem normalize_fixed {t : List Char}
    (h : ∀ x ∈ t, isDigit x = true ∨ x = ' ' ∨ x = '.') : normalize t = t := by
  unfold normalize
  conv_rhs => rw [← List.map_id t]
  apply List.map_congr_left
  intro x hx
  rcases h x hx with h | h | h
  · have h1 : isSpace x = false := not_isSpace_of_isDigit h
    have h2 : x ≠ ',' := by
      intro hc
      rw [hc] at h
      exact absurd h (by decide)
    simp [h1, h2]
  · rw [h]
    rfl
  · rw [h]
    rfl

theorem dot_mem_of_Lang {u : List Char} (h : groupedDecimal.Lang u ∨ bareDecimal.Lang u) :
    '.' ∈ u := by
  rcases h with h | h
  · obtain ⟨u1, u', rfl, -, u2, u3, rfl, -, h3⟩ := h
    obtain ⟨a, b, -, -, rfl⟩ := cents_Lang h3
    simp
  · obtain ⟨u1, u3, rfl, -, h3⟩ := h
    obtain ⟨a, b, -, -, rfl⟩ := cents_Lang h3
    simp

theorem no_dot_no_decimal {t : List Char} (hdot : '.' ∉ t) (p : Option Char) :
    groupedDecimal.run ⟨p, t⟩ = [] ∧ bareDecimal.run ⟨p, t⟩ = [] := by
  constructor
  · rw [List.eq_nil_iff_forall_not_mem]
    intro e he
    obtain ⟨u, hu, hl⟩ := groupedDecimal.run_sound _ e he
    apply hdot
    dsimp only at hu
    rw [hu]
    exact List.mem_append_left _ (dot_mem_of_Lang (Or.inl hl))
  · rw [List.eq_nil_iff_forall_not_mem]
    intro e he
    obtain ⟨u, hu, hl⟩ := bareDecimal.run_sound _ e he
    apply hdot
    dsimp only at hu
    rw [hu]
    exact List.mem_append_left _ (dot_mem_of_Lang (Or.inr hl))

theorem grouped_first_match (d : List Char) (gs : List (List Char)) (f : List Char)
    (hd : d ≠ [] ∧ d.length ≤ 3 ∧ ∀ x ∈ d, isDigit x = true)
    (hgs : gs ≠ [] ∧ ∀ g ∈ gs, g.length = 3 ∧ ∀ x ∈ g, isDigit x = true)
    (hf : f = [] ∨ ∃ a b, isDigit a = true ∧ isDigit b = true ∧ f = ['.', a, b]) :
    ∃ y tl, isDigit y = true
      ∧ moneyAlt.run ⟨none, d ++ (gs.map (fun g => ' ' :: g)).flatten ++ f⟩
          = ⟨some y, []⟩ :: tl := by
  obtain ⟨hdne, hdlen, hdd⟩ := hd
  obtain ⟨hgne, hg⟩ := hgs
  have hdlen1 : 1 ≤ d.length := by
    cases d with
    | nil => exact absurd rfl hdne
    | cons x r => simp
  have hglen1 : 1 ≤ gs.length := by
    cases gs with
    | nil => exact absurd rfl hgne
    | cons x r => simp
  have hGhead : ∀ x, ((gs.map (fun g => ' ' :: g)).flatten ++ f).head? = some x
      → isDigit x = false := by
    intro x hx
    cases gs with
    | nil => exact absurd rfl hgne
    | cons g l =>
      have : x = ' ' := by simpa using hx.symm
      rw [this]
      decide
  have hA : ∃ tl, (Re.rep 1 (some 3) digit).run
      ⟨none, d ++ ((gs.map (fun g => ' ' :: g)).flatten ++ f)⟩
      = ⟨prevAfter none d, (gs.map (fun g => ' ' :: g)).flatten ++ f⟩ :: tl :=
    digits_head d _ 1 3 none hdd (Or.inr hGhead) hdlen1 hdlen
  rw [List.append_assoc]
  rcases hf with rfl | ⟨a, b, ha, hb, rfl⟩
  · have hB := groups_head gs [] 1 (prevAfter none d) hg (by simp) hglen1
    obtain ⟨y, hy, hyd⟩ := groups_last hgne hg (prevAfter none d)
    rw [hy] at hB
    have hdot : '.' ∉ d ++ ((gs.map (fun g => ' ' :: g)).flatten ++ []) := by
      intro hmem
      rcases List.mem_append.mp hmem with h | h
      · exact absurd (hdd _ h) (by decide)
      · rw [List.append_nil] at h
        obtain ⟨t, ht, hxt⟩ := List.mem_flatten.mp h
        obtain ⟨g, hgm, rfl⟩ := List.mem_map.mp ht
        rcases List.mem_cons.mp hxt with h' | h'
        · exact absurd h' (by decide)
        · exact absurd ((hg g hgm).2 _ h') (by decide)
    obtain ⟨h1, h2⟩ := no_dot_no_decimal hdot none
    obtain ⟨tl, htl⟩ : ∃ tl, groupedInteger.run
        ⟨none, d ++ ((gs.map (fun g => ' ' :: g)).flatten ++ [])⟩ = ⟨some y, []⟩ :: tl :=
      flatMap_head hA hB
    refine ⟨y, tl, hyd, ?_⟩
    show groupedDecimal.run _ ++ (bareDecimal.run _ ++ groupedInteger.run _) = _
    rw [h1, h2, htl]
    rfl
  · have hB := groups_head gs ['.', a, b] 0 (prevAfter none d) hg
      (by
        intro x hx
        have : x = '.' := by simpa using hx.symm
        rw [this]
        decide)
      (Nat.zero_le _)
    have hC := cents_head ha hb (prevAfter (prevAfter none d) (gs.map (fun g => ' ' :: g)).flatten)
    obtain ⟨tl, htl⟩ : ∃ tl, groupedDecimal.run
        ⟨none, d ++ ((gs.map (fun g => ' ' :: g)).flatten ++ ['.', a, b])⟩ = ⟨some b, []⟩ :: tl :=
      flatMap_head hA (flatMap_head hB hC)
    refine ⟨b, tl ++ (bareDecimal.run
        ⟨none, d ++ ((gs.map (fun g => ' ' :: g)).flatten ++ ['.', a, b])⟩
      ++ groupedInteger.run
        ⟨none, d ++ ((gs.map (fun g => ' ' :: g)).flatten ++ ['.', a, b])⟩), hb, ?_⟩
    show groupedDecimal.run _ ++ (bareDecimal.run _ ++ groupedInteger.run _) = _
    rw [htl]
    rfl

/-- C3. A text that is exactly 1 to 3 digits, then one or more groups of one
space and three digits, then optionally `.` and two digits, and whose value is
not zero, is read as one number: `parseAmountFromText` returns the value of the
digits with the spaces deleted, plus the two decimals as hundredths. -/
theorem parseAmountFromText_grouped (engine : Engine) (d : List Char) (gs : List (List Char)) (f : List Char)
    (hd : d ≠ [] ∧ d.length ≤ 3 ∧ ∀ x ∈ d, isDigit x = true)
    (hgs : gs ≠ [] ∧ ∀ g ∈ gs, g.length = 3 ∧ ∀ x ∈ g, isDigit x = true)
    (hf : f = [] ∨ ∃ a b, isDigit a = true ∧ isDigit b = true ∧ f = ['.', a, b])
    (hnz : digitsVal (d ++ gs.flatten) ≠ 0 ∨ digitsVal (f.drop 1) ≠ 0) :
    parseAmountFromText engine (d ++ (gs.map (fun g => ' ' :: g)).flatten ++ f)
      = .returns (some ((digitsVal (d ++ gs.flatten) : ℚ) + (digitsVal (f.drop 1) : ℚ) / 100)) := by
  obtain ⟨y, tl, hy, hrun⟩ := grouped_first_match d gs f hd hgs hf
  obtain ⟨hdne, -, hdd⟩ := hd
  obtain ⟨-, hg⟩ := hgs
  have hgd : ∀ g ∈ gs, ∀ x ∈ g, isDigit x = true := fun g hgm => (hg g hgm).2
  have hds : ∀ x ∈ d ++ gs.flatten, isDigit x = true := by
    intro x hx
    rcases List.mem_append.mp hx with h | h
    · exact hdd x h
    · obtain ⟨g, hgm, hxg⟩ := List.mem_flatten.mp h
      exact hgd g hgm x hxg
  have hdsne : d ++ gs.flatten ≠ [] := by
    intro h
    exact hdne (List.append_eq_nil.mp h).1
  -- the text is its own normalization
  have hnorm : normalize (d ++ (gs.map (fun g => ' ' :: g)).flatten ++ f)
      = d ++ (gs.map (fun g => ' ' :: g)).flatten ++ f := by
    apply normalize_fixed
    intro x hx
    rcases List.mem_append.mp hx with h | h
    · rcases List.mem_append.mp h with h | h
      · exact Or.inl (hdd x h)
      · obtain ⟨t, ht, hxt⟩ := List.mem_flatten.mp h
        obtain ⟨g, hgm, rfl⟩ := List.mem_map.mp ht
        rcases List.mem_cons.mp hxt with h' | h'
        · exact Or.inr (Or.inl h')
        · exact Or.inl (hgd g hgm x h')
    · rcases hf with rfl | ⟨a, b, ha, hb, rfl⟩
      · simp at h
      · rcases List.mem_cons.mp h with h' | h'
        · exact Or.inr (Or.inr h')
        · rcases List.mem_cons.mp h' with h'' | h''
          · rw [h'']
            exact Or.inl ha
          · have : x = b := by simpa using h''
            rw [this]
            exact Or.inl hb
  -- the whole text is the one match
  have hms : moneyMatches (d ++ (gs.map (fun g => ' ' :: g)).flatten ++ f)
      = some [d ++ (gs.map (fun g => ' ' :: g)).flatten ++ f] := by
    unfold moneyMatches matchAll
    rw [hnorm]
    cases d with
    | nil => exact absurd rfl hdne
    | cons x r =>
      have hx : isDigit x = true := hdd x (List.mem_cons_self x r)
      simp only [List.cons_append] at hrun ⊢
      rw [scan_whole moneyRe moneyRe_run_nil x _ (some y) (moneyRe_head hx hy ⟨tl, hrun⟩)]
  -- its value
  have hfilter : (d ++ (gs.map (fun g => ' ' :: g)).flatten ++ f).filter (fun c => !isSpace c)
      = d ++ gs.flatten ++ f.filter (fun c => !isSpace c) := by
    rw [List.filter_append, List.filter_append, filter_notSpace_digits hdd, filter_groups gs hgd]
  have hnum : toNumber (d ++ (gs.map (fun g => ' ' :: g)).flatten ++ f)
      = some ((digitsVal (d ++ gs.flatten) : ℚ) + (digitsVal (f.drop 1) : ℚ) / 100) := by
    unfold toNumber
    rw [hfilter]
    rcases hf with rfl | ⟨a, b, ha, hb, rfl⟩
    · rw [List.filter_nil, List.append_nil, parseFloat_integer hdsne hds]
      simp [digitsVal]
    · have hff : ['.', a, b].filter (fun c => !isSpace c) = ['.', a, b] := by
        have hdot : isSpace '.' = false := by decide
        simp [hdot, not_isSpace_of_isDigit ha, not_isSpace_of_isDigit hb]
      rw [hff, parseFloat_decimal hdsne hds ha hb]
      rfl
  have hpos : (0 : ℚ) < (digitsVal (d ++ gs.flatten) : ℚ) + (digitsVal (f.drop 1) : ℚ) / 100 := by
    rcases hnz with h | h
    · have h1 : (0 : ℚ) < (digitsVal (d ++ gs.flatten) : ℚ) := by
        exact_mod_cast Nat.pos_of_ne_zero h
      have h2 : (0 : ℚ) ≤ (digitsVal (f.drop 1) : ℚ) / 100 := by positivity
      linarith
    · have h1 : (0 : ℚ) < (digitsVal (f.drop 1) : ℚ) := by
        exact_mod_cast Nat.pos_of_ne_zero h
      have h2 : (0 : ℚ) ≤ (digitsVal (d ++ gs.flatten) : ℚ) := by positivity
      have h3 : (0 : ℚ) < (digitsVal (f.drop 1) : ℚ) / 100 := by positivity
      linarith
  apply parseAmountFromText_single engine hms
  simp only [candidates, List.map_cons, List.map_nil, hnum, List.filterMap_cons, if_pos hpos,
    List.filterMap_nil]

theorem parseAmountFromText_grouped_witness :
    parseAmountFromText sampleEngine "1 234".toList = .returns (some 1234)
    ∧ parseAmountFromText sampleEngine "Total: 1 234.56 Tax: 99.99".toList
        = .returns (some (123456 / 100))
    ∧ parseAmountFromText sampleEngine
        ("1".toList ++ (["234".toList].map (fun g => ' ' :: g)).flatten ++ ".56".toList)
      = .returns (some ((digitsVal ("1".toList ++ ["234".toList].flatten) : ℚ)
          + (digitsVal (".56".toList.drop 1) : ℚ) / 100)) :=
  ⟨by decide!, by decide!,
    parseAmountFromText_grouped sampleEngine "1".toList ["234".toList] ".56".toList
      ⟨by decide, by decide, by decide⟩ ⟨by decide, by decide⟩
      (Or.inr ⟨'5', '6', by decide, by decide, rfl⟩) (Or.inl (by decide))⟩

/-! ## The description of the submitted draft -/

theorem takeWhile_dot_split (name : Str) :
    name = name.takeWhile (fun c => c != '.') ++ name.dropWhile (fun c => c != '.')
    ∧ '.' ∉ name.takeWhile (fun c => c != '.')
    ∧ (name.dropWhile (fun c => c != '.') = []
        ∨ ∃ r, name.dropWhile (fun c => c != '.') = '.' :: r) := by
  refine ⟨(List.takeWhile_append_dropWhile _ name).symm, ?_, ?_⟩
  · intro h
    have := List.mem_takeWhile_imp h
    simp at this
  · cases hdrop : name.dropWhile (fun c => c != '.') with
    | nil => exact Or.inl rfl
    | cons x r =>
      right
      have hx := List.head_dropWhile_not (fun c => c != '.') name
        (by rw [hdrop]; simp)
      simp only [hdrop, List.head_cons] at hx
      have : x = '.' := by simpa using hx
      exact ⟨r, by rw [this]⟩

theorem stripExtension_one_dot (p r : Str) (hp : '.' ∉ p) (hr : '.' ∉ r) :
    stripExtension p = p ∧ stripExtension (p ++ '.' :: r) = p := by
  constructor
  · unfold stripExtension
    rw [if_neg hp]
  · unfold stripExtension
    rw [if_pos (by simp)]
    have h1 : (p ++ '.' :: r).reverse = r.reverse ++ '.' :: p.reverse := by simp
    have h2 : ∀ a ∈ r.reverse, (fun c => c != '.') a = true := by
      intro a ha
      have har : a ∈ r := List.mem_reverse.mp ha
      have : a ≠ '.' := fun h => hr (h ▸ har)
      simpa using this
    rw [h1, List.dropWhile_append_of_pos h2]
    simp [List.dropWhile_cons]

theorem description_eq (file : File) :
    description file =
      if file.name.takeWhile (fun c => c != '.') = [] then "Receipt OCR".toList
      else file.name.takeWhile (fun c => c != '.') := by
  unfold description orElse
  cases file.name.takeWhile (fun c => c != '.') with
  | nil => rfl
  | cons x r => rfl

/-- C11, as the code has it. The description of a submitted draft is the part of
the name of the selected file before its first `.`, or `Receipt OCR` when that
part is empty; when that part is not empty and the name holds at most one `.`,
this is the name with its extension stripped. -/
theorem draft_description (engine : Engine) (fetch : File → FetchResult)
    (addTransaction : TransactionDraft → Except Str Unit) (now : Str) (s : ModalState)
    (d : TransactionDraft)
    (h : Effect.addTransaction d ∈ (handleUpload engine fetch addTransaction now s).2) :
    ∃ file p rest, s.selectedFile = some file ∧ file.name = p ++ rest ∧ '.' ∉ p
      ∧ (rest = [] ∨ ∃ r, rest = '.' :: r)
      ∧ d.description = (if p = [] then "Receipt OCR".toList else p)
      ∧ (p ≠ [] → '.' ∉ rest.drop 1 → d.description = stripExtension file.name) := by
  have hd : d ∈ submitted (handleUpload engine fetch addTransaction now s).2 := by
    unfold submitted
    rw [List.mem_filterMap]
    exact ⟨_, h, rfl⟩
  rcases handleUpload_effects engine fetch addTransaction now s with ⟨-, h0⟩ | ⟨file, s', hs, he⟩
  · rw [h0] at hd
    simp at hd
  · rw [he] at hd
    obtain ⟨-, -, a, -, -, hdraft⟩ := uploadAttempt_submitted _ _ _ _ _ _ _ hd
    obtain ⟨hsplit, hp, hrest⟩ := takeWhile_dot_split file.name
    have hdesc : d.description =
        if file.name.takeWhile (fun c => c != '.') = [] then "Receipt OCR".toList
        else file.name.takeWhile (fun c => c != '.') := by
      rw [hdraft]
      exact description_eq file
    refine ⟨file, _, _, hs, hsplit, hp, hrest, hdesc, ?_⟩
    intro hne hone
    rw [hdesc, if_neg hne]
    rcases hrest with hnil | ⟨r, hr⟩
    · have hname : file.name = file.name.takeWhile (fun c => c != '.') := by
        conv_lhs => rw [hsplit, hnil, List.append_nil]
      conv_rhs => rw [hname]
      exact (stripExtension_one_dot _ [] hp (by simp)).1.symm
    · rw [hr] at hone
      conv_rhs => rw [hsplit, hr]
      exact (stripExtension_one_dot _ r hp (by simpa using hone)).2.symm

theorem draft_description_witness :
    Effect.addTransaction
        { description := "receipt".toList, amount := 42, category := "Other".toList,
          date := "2024-01-01T00:00:00.000Z".toList, type := "expense".toList,
          paymentMethod := "Cash".toList }
      ∈ (handleUpload sampleEngine (fun _ => .response true (.object (some "Total 42.00".toList) none))
          (fun _ => .ok ()) "2024-01-01T00:00:00.000Z".toList
          { initialState with selectedFile := some ⟨"receipt.png".toList, "image/png".toList⟩ }).2
    ∧ stripExtension "receipt.png".toList = "receipt".toList
    ∧ ∃ file p rest,
        ({ initialState with
            selectedFile := some ⟨"receipt.png".toList, "image/png".toList⟩ } : ModalState).selectedFile
          = some file
        ∧ file.name = p ++ rest ∧ '.' ∉ p ∧ (rest = [] ∨ ∃ r, rest = '.' :: r)
        ∧ "receipt".toList = (if p = [] then "Receipt OCR".toList else p)
        ∧ (p ≠ [] → '.' ∉ rest.drop 1 → "receipt".toList = stripExtension file.name) :=
  ⟨by decide!, by decide,
    draft_description sampleEngine (fun _ => .response true (.object (some "Total 42.00".toList) none))
      (fun _ => .ok ()) "2024-01-01T00:00:00.000Z".toList
      { initialState with selectedFile := some ⟨"receipt.png".toList, "image/png".toList⟩ }
      { description := "receipt".toList, amount := 42, category := "Other".toList,
        date := "2024-01-01T00:00:00.000Z".toList, type := "expense".toList,
        paymentMethod := "Cash".toList } (by decide!)⟩

/-- C11, as stated, fails. For the file `archive.tar.gz` the submitted draft is
described `archive`, while the name without its final `.`-suffix is
`archive.tar`; for the file `.png` the draft is described `Receipt OCR`, while
the name without its final `.`-suffix is empty. -/
theorem draft_description_first_dot :
    (submitted (handleUpload sampleEngine (fun _ => .response true (.object (some "Total 42.00".toList) none))
        (fun _ => .ok ()) "2024-01-01T00:00:00.000Z".toList
        { initialState with
            selectedFile := some ⟨"archive.tar.gz".toList, "image/png".toList⟩ }).2).map
      (fun d => d.description) = ["archive".toList]
    ∧ stripExtension "archive.tar.gz".toList = "archive.tar".toList
    ∧ (submitted (handleUpload sampleEngine (fun _ => .response true (.object (some "Total 42.00".toList) none))
        (fun _ => .ok ()) "2024-01-01T00:00:00.000Z".toList
        { initialState with selectedFile := some ⟨".png".toList, "image/png".toList⟩ }).2).map
      (fun d => d.description) = ["Receipt OCR".toList]
    ∧ stripExtension ".png".toList = [] := by
  refine ⟨by decide!, by decide, by decide!, by decide⟩

/-! ## Neighbouring numbers merged into one amount -/

theorem digitsVal_foldl (b : List Char) : ∀ acc : Nat,
    b.foldl (fun acc c => 10 * acc + (c.toNat - '0'.toNat)) acc
      = acc * 10 ^ b.length + digitsVal b := by
  induction b with
  | nil =>
    intro acc
    simp [digitsVal]
  | cons x r ih =>
    intro acc
    unfold digitsVal
    simp only [List.foldl_cons, List.length_cons]
    rw [ih, ih (10 * 0 + (x.toNat - '0'.toNat))]
    ring

theorem digitsVal_append (a b : List Char) :
    digitsVal (a ++ b) = digitsVal a * 10 ^ b.length + digitsVal b := by
  unfold digitsVal
  rw [List.foldl_append]
  exact digitsVal_foldl b _

theorem amount_of_grouped_normal_form (engine : Engine) (text d : List Char) (gs : List (List Char))
    (f : List Char)
    (hnorm : normalize text = d ++ (gs.map (fun g => ' ' :: g)).flatten ++ f)
    (hd : d ≠ [] ∧ d.length ≤ 3 ∧ ∀ x ∈ d, isDigit x = true)
    (hgs : gs ≠ [] ∧ ∀ g ∈ gs, g.length = 3 ∧ ∀ x ∈ g, isDigit x = true)
    (hf : f = [] ∨ ∃ a b, isDigit a = true ∧ isDigit b = true ∧ f = ['.', a, b])
    (hpos : (0 : ℚ) < (digitsVal (d ++ gs.flatten) : ℚ) + (digitsVal (f.drop 1) : ℚ) / 100) :
    parseAmountFromText engine text
      = .returns (some ((digitsVal (d ++ gs.flatten) : ℚ) + (digitsVal (f.drop 1) : ℚ) / 100)) := by
  obtain ⟨y, tl, hy, hrun⟩ := grouped_first_match d gs f hd hgs hf
  obtain ⟨hdne, -, hdd⟩ := hd
  obtain ⟨-, hg⟩ := hgs
  have hgd : ∀ g ∈ gs, ∀ x ∈ g, isDigit x = true := fun g hgm => (hg g hgm).2
  have hds : ∀ x ∈ d ++ gs.flatten, isDigit x = true := by
    intro x hx
    rcases List.mem_append.mp hx with h | h
    · exact hdd x h
    · obtain ⟨g, hgm, hxg⟩ := List.mem_flatten.mp h
      exact hgd g hgm x hxg
  have hdsne : d ++ gs.flatten ≠ [] := fun h => hdne (List.append_eq_nil.mp h).1
  have hms : moneyMatches text = some [d ++ (gs.map (fun g => ' ' :: g)).flatten ++ f] := by
    unfold moneyMatches matchAll
    rw [hnorm]
    cases d with
    | nil => exact absurd rfl hdne
    | cons x r =>
      have hx : isDigit x = true := hdd x (List.mem_cons_self x r)
      simp only [List.cons_append] at hrun ⊢
      rw [scan_whole moneyRe moneyRe_run_nil x _ (some y) (moneyRe_head hx hy ⟨tl, hrun⟩)]
  have hnum : toNumber (d ++ (gs.map (fun g => ' ' :: g)).flatten ++ f)
      = some ((digitsVal (d ++ gs.flatten) : ℚ) + (digitsVal (f.drop 1) : ℚ) / 100) := by
    unfold toNumber
    rw [List.filter_append, List.filter_append, filter_notSpace_digits hdd, filter_groups gs hgd]
    rcases hf with rfl | ⟨a, b, ha, hb, rfl⟩
    · rw [List.filter_nil, List.append_nil, parseFloat_integer hdsne hds]
      simp [digitsVal]
    · have hff : ['.', a, b].filter (fun c => !isSpace c) = ['.', a, b] := by
        have hdot : isSpace '.' = false := by decide
        simp [hdot, not_isSpace_of_isDigit ha, not_isSpace_of_isDigit hb]
      rw [hff, parseFloat_decimal hdsne hds ha hb]
      rfl
  apply parseAmountFromText_single engine hms
  simp only [candidates, List.map_cons, List.map_nil, hnum, List.filterMap_cons, if_pos hpos,
    List.filterMap_nil]

theorem normalize_append (a b : List Char) : normalize (a ++ b) = normalize a ++ normalize b := by
  simp [normalize]

theorem normalize_digits {t : List Char} (h : ∀ x ∈ t, isDigit x = true) : normalize t = t :=
  normalize_fixed (fun x hx => Or.inl (h x hx))

theorem normalize_cents {f : List Char}
    (hf : f = [] ∨ ∃ a b, isDigit a = true ∧ isDigit b = true ∧ f = ['.', a, b]) :
    normalize f = f := by
  apply normalize_fixed
  intro x hx
  rcases hf with rfl | ⟨a, b, ha, hb, rfl⟩
  · simp at hx
  · rcases List.mem_cons.mp hx with h | h
    · exact Or.inr (Or.inr h)
    · rcases List.mem_cons.mp h with h' | h'
      · rw [h']
        exact Or.inl ha
      · have : x = b := by simpa using h'
        rw [this]
        exact Or.inl hb

theorem tokenNumber_integer {t : List Char} (hne : t ≠ []) (h : ∀ x ∈ t, isDigit x = true) :
    tokenNumber t = some (digitsVal t : ℚ) := by
  have h1 : t.all (fun c => isDigit c || c == '.') = true := by
    rw [List.all_eq_true]
    intro x hx
    simp [h x hx]
  have h2 : t.filter (fun c => c == '.') = [] := by
    rw [List.filter_eq_nil_iff]
    intro x hx hdot
    have : x = '.' := by simpa using hdot
    rw [this] at hx
    exact absurd (h _ hx) (by decide)
  unfold tokenNumber
  rw [h1, h2, parseFloat_integer hne h]
  rfl

theorem tokenNumber_decimal {t : List Char} {a b : Char} (hne : t ≠ [])
    (h : ∀ x ∈ t, isDigit x = true) (ha : isDigit a = true) (hb : isDigit b = true) :
    tokenNumber (t ++ ['.', a, b])
      = some ((digitsVal t : ℚ) + (digitsVal [a, b] : ℚ) / 100) := by
  have hnd : ∀ x, isDigit x = true → (x == '.') = false := by
    intro x hx
    cases hxd : (x == '.') with
    | false => rfl
    | true =>
      have : x = '.' := by simpa using hxd
      rw [this] at hx
      exact absurd hx (by decide)
  have h1 : (t ++ ['.', a, b]).all (fun c => isDigit c || c == '.') = true := by
    rw [List.all_eq_true]
    intro x hx
    rcases List.mem_append.mp hx with hx | hx
    · simp [h x hx]
    · rcases List.mem_cons.mp hx with h' | h'
      · simp [h']
      · rcases List.mem_cons.mp h' with h'' | h''
        · simp [h'', ha]
        · have : x = b := by simpa using h''
          simp [this, hb]
  have h2 : t.filter (fun c => c == '.') = [] := by
    rw [List.filter_eq_nil_iff]
    intro x hx hdot
    rw [hnd x (h x hx)] at hdot
    exact absurd hdot (by decide)
  have h3 : (t ++ ['.', a, b]).filter (fun c => c == '.') = ['.'] := by
    rw [List.filter_append, h2]
    simp [List.filter_cons, hnd a ha, hnd b hb]
  unfold tokenNumber
  rw [h1, h3, parseFloat_decimal hne h ha hb]
  rfl

/-- C12. A number of 1 to 3 digits with a non-zero value, one white-space
character (a line break included) or comma, and a number that starts with exactly
three digits (with or without two decimals) are merged into one grouped-thousands
amount; when the separator is white space the two numbers are the
white-space-delimited tokens of the text and the result is larger than both.
So for some texts the result exceeds every number printed as a token:
`Qty 2`, line break, `150.00` yields 2150 while its numeric tokens are 2 and
150. -/
theorem parseAmountFromText_merges (engine : Engine) (d g f : List Char) (sep : Char)
    (hd : d ≠ [] ∧ d.length ≤ 3 ∧ ∀ x ∈ d, isDigit x = true)
    (hsep : isSep sep = true)
    (hg : g.length = 3 ∧ ∀ x ∈ g, isDigit x = true)
    (hf : f = [] ∨ ∃ a b, isDigit a = true ∧ isDigit b = true ∧ f = ['.', a, b])
    (hnz : digitsVal d ≠ 0) :
    (∃ v, parseAmountFromText engine (d ++ sep :: (g ++ f)) = .returns (some v)
      ∧ v = (digitsVal d : ℚ) * 1000 + (digitsVal g : ℚ) + (digitsVal (f.drop 1) : ℚ) / 100
      ∧ (isSpace sep = true →
          wsTokens (d ++ sep :: (g ++ f)) = [d, g ++ f]
          ∧ ∀ t ∈ wsTokens (d ++ sep :: (g ++ f)), ∃ w, tokenNumber t = some w ∧ w < v))
    ∧ parseAmountFromText engine "Qty 2\n150.00".toList = .returns (some 2150)
    ∧ (wsTokens "Qty 2\n150.00".toList).filterMap tokenNumber = [2, 150] := by
  refine ⟨?_,
    parseAmountFromText_single engine
      (show moneyMatches "Qty 2\n150.00".toList = some ["2 150.00".toList] by decide)
      (by decide!),
    by decide!⟩
  obtain ⟨hdne, hdlen, hdd⟩ := hd
  obtain ⟨hglen, hgd⟩ := hg
  have hgne : g ≠ [] := by
    intro h
    rw [h] at hglen
    simp at hglen
  have hval : digitsVal (d ++ [g].flatten) = digitsVal d * 1000 + digitsVal g := by
    rw [List.flatten_cons, List.flatten_nil, List.append_nil, digitsVal_append, hglen]
    norm_num
  have hcents : (0 : ℚ) ≤ (digitsVal (f.drop 1) : ℚ) / 100 := by positivity
  have hdpos : (1 : ℚ) ≤ (digitsVal d : ℚ) := by
    exact_mod_cast Nat.pos_of_ne_zero hnz
  have hgnn : (0 : ℚ) ≤ (digitsVal g : ℚ) := by positivity
  have hnorm : normalize (d ++ sep :: (g ++ f))
      = d ++ ([g].map (fun g => ' ' :: g)).flatten ++ f := by
    have hs : normalize (sep :: (g ++ f)) = ' ' :: normalize (g ++ f) := by
      unfold isSep at hsep
      simp only [normalize, List.map_cons, if_pos hsep]
    rw [normalize_append, hs, normalize_append, normalize_digits hdd, normalize_digits hgd,
      normalize_cents hf]
    simp
  have hparse := amount_of_grouped_normal_form engine (d ++ sep :: (g ++ f)) d [g] f hnorm
    ⟨hdne, hdlen, hdd⟩
    ⟨by simp, by
      intro g' hg'
      have : g' = g := by simpa using hg'
      rw [this]
      exact ⟨hglen, hgd⟩⟩
    hf
    (by
      rw [hval]
      push_cast
      linarith)
  rw [hval] at hparse
  refine ⟨_, hparse, by push_cast; ring, ?_⟩
  intro hspace
  have htok : wsTokens (d ++ sep :: (g ++ f)) = [d, g ++ f] := by
    have h1 : ∀ x ∈ d, ¬ (isSpace x = true) := by
      intro x hx
      rw [not_isSpace_of_isDigit (hdd x hx)]
      decide
    have h2 : ∀ x ∈ g ++ f, ¬ (isSpace x = true) := by
      intro x hx
      rcases List.mem_append.mp hx with h | h
      · rw [not_isSpace_of_isDigit (hgd x h)]
        decide
      · rcases hf with rfl | ⟨a, b, ha, hb, rfl⟩
        · simp at h
        · rcases List.mem_cons.mp h with h' | h'
          · rw [h']
            decide
          · rcases List.mem_cons.mp h' with h'' | h''
            · rw [h'', not_isSpace_of_isDigit ha]
              decide
            · have : x = b := by simpa using h''
              rw [this, not_isSpace_of_isDigit hb]
              decide
    unfold wsTokens
    rw [List.splitOnP_first isSpace d h1 sep hspace, List.splitOnP_eq_single isSpace (g ++ f) h2]
    cases d with
    | nil => exact absurd rfl hdne
    | cons x r =>
      cases g with
      | nil => exact absurd rfl hgne
      | cons y s => rfl
  refine ⟨htok, ?_⟩
  intro t ht
  rw [htok] at ht
  rcases List.mem_cons.mp ht with h | h
  · rw [h]
    refine ⟨_, tokenNumber_integer hdne hdd, ?_⟩
    push_cast
    linarith
  · have ht' : t = g ++ f := by simpa using h
    rw [ht']
    rcases hf with rfl | ⟨a, b, ha, hb, rfl⟩
    · rw [List.append_nil]
      refine ⟨_, tokenNumber_integer hgne hgd, ?_⟩
      push_cast
      linarith
    · refine ⟨_, tokenNumber_decimal hgne hgd ha hb, ?_⟩
      have : (digitsVal (['.', a, b].drop 1) : ℚ) = (digitsVal [a, b] : ℚ) := rfl
      rw [this]
      push_cast
      linarith

theorem parseAmountFromText_merges_witness :
    (∃ v, parseAmountFromText sampleEngine ("2".toList ++ '\n' :: ("150".toList ++ ".00".toList)) = .returns (some v)
      ∧ v = (digitsVal "2".toList : ℚ) * 1000 + (digitsVal "150".toList : ℚ)
          + (digitsVal (".00".toList.drop 1) : ℚ) / 100
      ∧ (isSpace '\n' = true →
          wsTokens ("2".toList ++ '\n' :: ("150".toList ++ ".00".toList))
            = ["2".toList, "150".toList ++ ".00".toList]
          ∧ ∀ t ∈ wsTokens ("2".toList ++ '\n' :: ("150".toList ++ ".00".toList)),
              ∃ w, tokenNumber t = some w ∧ w < v))
    ∧ parseAmountFromText sampleEngine "Qty 2\n150.00".toList = .returns (some 2150)
    ∧ (wsTokens "Qty 2\n150.00".toList).filterMap tokenNumber = [2, 150] :=
  parseAmountFromText_merges sampleEngine "2".toList "150".toList ".00".toList '\n'
    ⟨by decide, by decide, by decide⟩ (by decide) ⟨by decide, by decide⟩
    (Or.inr ⟨'0', '0', by decide, by decide, rfl⟩) (by decide)

/-! ## A text with more amounts than the engine accepts as arguments -/

theorem moneyAlt_Lang_head {t : List Char} (h : moneyAlt.Lang t) :
    ∃ x r, t = x :: r ∧ isDigit x = true := by
  have key : ∀ (hi : Option Nat) (b : Re) (u : List Char),
      (Re.seq (.rep 1 hi digit) b).Lang u → ∃ x r, u = x :: r ∧ isDigit x = true := by
    intro hi b u hu
    obtain ⟨t1, t2, rfl, h1, -⟩ := hu
    obtain ⟨hd, hlo, -⟩ := rep_digit_Lang h1
    cases t1 with
    | nil => simp at hlo
    | cons x r => exact ⟨x, r ++ t2, rfl, hd x (List.mem_cons_self x r)⟩
  rcases h with h | h | h
  · exact key _ _ t h
  · exact key _ _ t h
  · exact key _ _ t h

theorem moneyRe_run_nondigit (p : Option Char) (rest : List Char)
    (h : ∀ x, rest.head? = some x → isDigit x = false) : moneyRe.run ⟨p, rest⟩ = [] := by
  rw [List.eq_nil_iff_forall_not_mem]
  intro e he
  obtain ⟨t, ht, hl⟩ := moneyRe.run_sound ⟨p, rest⟩ e he
  obtain ⟨x, r, rfl, hx⟩ := moneyAlt_Lang_head (moneyRe_Lang hl)
  dsimp only at ht
  have := h x (by rw [ht]; rfl)
  rw [hx] at this
  exact absurd this (by decide)

theorem cents_head_rest {a b : Char} (ha : isDigit a = true) (hb : isDigit b = true)
    (p : Option Char) (rest : List Char) :
    ∃ tl, (Re.seq dot (.rep 2 (some 2) digit)).run ⟨p, '.' :: a :: b :: rest⟩
      = ⟨some b, rest⟩ :: tl := by
  obtain ⟨tl, h⟩ := digits_head [a, b] rest 2 2 (some '.')
    (by
      intro x hx
      rcases List.mem_cons.mp hx with h | h
      · rw [h]
        exact ha
      · have : x = b := by simpa using h
        rw [this]
        exact hb)
    (Or.inl rfl) (by simp) (by simp)
  refine ⟨tl, ?_⟩
  have hp : prevAfter (some '.') [a, b] = some b := by simp [prevAfter]
  rw [hp] at h
  rw [← h]
  simp [Re.run, dot]

theorem amount_first_match (p : Option Char) (rest : List Char) (hp : wordSide p = false) :
    ∃ tl, moneyRe.run ⟨p, '1' :: '.' :: '0' :: '0' :: ' ' :: rest⟩
      = ⟨some '0', ' ' :: rest⟩ :: tl := by
  have hW1 : ∃ tl, Re.wordB.run ⟨p, '1' :: '.' :: '0' :: '0' :: ' ' :: rest⟩
      = ⟨p, '1' :: '.' :: '0' :: '0' :: ' ' :: rest⟩ :: tl :=
    ⟨[], by
      have h1 : wordSide (some '1') = true := by decide
      simp [Re.run, hp, h1]⟩
  have hA : ∃ tl, (Re.rep 1 (some 3) digit).run ⟨p, ['1'] ++ '.' :: '0' :: '0' :: ' ' :: rest⟩
      = ⟨prevAfter p ['1'], '.' :: '0' :: '0' :: ' ' :: rest⟩ :: tl :=
    digits_head ['1'] _ 1 3 p
      (by
        intro x hx
        have : x = '1' := by simpa using hx
        rw [this]
        decide)
      (Or.inr (by
        intro x hx
        have : x = '.' := by simpa using hx.symm
        rw [this]
        decide))
      (by simp) (by simp)
  have hB : ∃ tl, (Re.rep 0 none (.seq space (.rep 3 (some 3) digit))).run
      ⟨prevAfter p ['1'], '.' :: '0' :: '0' :: ' ' :: rest⟩
      = ⟨prevAfter p ['1'], '.' :: '0' :: '0' :: ' ' :: rest⟩ :: tl :=
    groups_head [] _ 0 (prevAfter p ['1'])
      (by
        intro g hg
        simp at hg)
      (by
        intro x hx
        have : x = '.' := by simpa using hx.symm
        rw [this]
        decide)
      (Nat.zero_le _)
  have hC := cents_head_rest (show isDigit '0' = true by decide) (show isDigit '0' = true by decide)
    (prevAfter p ['1']) (' ' :: rest)
  obtain ⟨tl, htl⟩ : ∃ tl, groupedDecimal.run ⟨p, '1' :: '.' :: '0' :: '0' :: ' ' :: rest⟩
      = ⟨some '0', ' ' :: rest⟩ :: tl :=
    flatMap_head hA (flatMap_head hB hC)
  have hAlt : ∃ tl, moneyAlt.run ⟨p, '1' :: '.' :: '0' :: '0' :: ' ' :: rest⟩
      = ⟨some '0', ' ' :: rest⟩ :: tl := by
    refine ⟨tl ++ (bareDecimal.run ⟨p, '1' :: '.' :: '0' :: '0' :: ' ' :: rest⟩
      ++ groupedInteger.run ⟨p, '1' :: '.' :: '0' :: '0' :: ' ' :: rest⟩), ?_⟩
    show groupedDecimal.run _ ++ (bareDecimal.run _ ++ groupedInteger.run _) = _
    rw [htl]
    rfl
  have hW2 : ∃ tl, Re.wordB.run ⟨some '0', ' ' :: rest⟩ = ⟨some '0', ' ' :: rest⟩ :: tl :=
    ⟨[], by
      have h0 : isWordChar '0' = true := by decide
      have hs : isWordChar ' ' = false := by decide
      simp [Re.run, wordSide, h0, hs]⟩
  exact flatMap_head hW1 (flatMap_head hAlt hW2)

theorem manyAmounts_succ (n : Nat) :
    manyAmounts (n + 1) = '1' :: '.' :: '0' :: '0' :: ' ' :: manyAmounts n := by
  simp [manyAmounts, List.replicate_succ]

theorem scan_manyAmounts (n : Nat) : ∀ p : Option Char, wordSide p = false →
    scan moneyRe p (manyAmounts n) 0 = List.replicate n "1.00".toList := by
  induction n with
  | zero =>
    intro p _
    simp [manyAmounts, scan, moneyRe_run_nil]
  | succ n ih =>
    intro p hp
    obtain ⟨tl, htl⟩ := amount_first_match p (manyAmounts n) hp
    have hlen : ('1' :: '.' :: '0' :: '0' :: ' ' :: manyAmounts n).length
        - (' ' :: manyAmounts n).length = 4 := by
      simp only [List.length_cons]
      omega
    have hstop : moneyRe.run ⟨some '0', ' ' :: manyAmounts n⟩ = [] :=
      moneyRe_run_nondigit _ _ (by
        intro x hx
        have : x = ' ' := by simpa using hx.symm
        rw [this]
        decide)
    rw [manyAmounts_succ, List.replicate_succ]
    simp only [scan, htl, List.head?_cons, hlen, hstop, List.head?_nil]
    rw [ih (some ' ') (by decide)]
    rfl

theorem normalize_manyAmounts (n : Nat) : normalize (manyAmounts n) = manyAmounts n := by
  apply normalize_fixed
  intro x hx
  unfold manyAmounts at hx
  obtain ⟨t, ht, hxt⟩ := List.mem_flatten.mp hx
  have ht' : t = "1.00 ".toList := (List.mem_replicate.mp ht).2
  rw [ht'] at hxt
  have key : ∀ y ∈ "1.00 ".toList, isDigit y = true ∨ y = ' ' ∨ y = '.' := by decide
  exact key x hxt

theorem candidates_replicate (n : Nat) :
    candidates (List.replicate n "1.00".toList) = List.replicate n (1 : ℚ) := by
  have h1 : toNumber "1.00".toList = some 1 := by decide!
  induction n with
  | zero => rfl
  | succ n ih =>
    unfold candidates at ih ⊢
    rw [List.replicate_succ, List.map_cons, List.filterMap_cons, h1]
    simp only [zero_lt_one, if_true]
    rw [ih, List.replicate_succ]

theorem parseAmountFromText_manyAmounts (engine : Engine) :
    parseAmountFromText engine (manyAmounts (engine.maxArgs + 1))
      = .throws engine.rangeErrorMessage := by
  have hms : moneyMatches (manyAmounts (engine.maxArgs + 1))
      = some (List.replicate (engine.maxArgs + 1) "1.00".toList) := by
    unfold moneyMatches matchAll
    rw [normalize_manyAmounts, scan_manyAmounts _ none rfl, List.replicate_succ]
  apply parseAmountFromText_throws engine hms
  rw [candidates_replicate, List.length_replicate]
  exact Nat.lt_succ_self _

/-- C7, at the failing input. After a successful upload whose recognized text
holds one amount more than the engine accepts as arguments of one call, the call
`Math.max(...candidates)` throws inside `parseAmountFromText`, outside the inner
`try`: the workflow ends with `ocrText` set to the text and `errorMessage` set to
the message of the `RangeError`, not empty as the claim has it, and
`addTransaction` is not called. -/
theorem handleUpload_parse_throws (engine : Engine) (fetch : File → FetchResult)
    (addTransaction : TransactionDraft → Except Str Unit) (now : Str) (file : File)
    (s : ModalState) (error : Option Str) (hs : s.selectedFile = some file)
    (hf : fetch file
      = .response true (.object (some (manyAmounts (engine.maxArgs + 1))) error)) :
    (handleUpload engine fetch addTransaction now s).1 =
        { s with ocrText := manyAmounts (engine.maxArgs + 1),
                 errorMessage := orElse (some engine.rangeErrorMessage)
                   "Something went wrong".toList,
                 isUploading := false }
    ∧ (handleUpload engine fetch addTransaction now s).1.errorMessage ≠ []
    ∧ (handleUpload engine fetch addTransaction now s).2 = [.upload file] := by
  have ht : orElse (some (manyAmounts (engine.maxArgs + 1))) []
      = manyAmounts (engine.maxArgs + 1) := by
    rw [manyAmounts_succ]
    rfl
  obtain ⟨h1, h2⟩ := handleUpload_success engine fetch addTransaction now file s
    (some (manyAmounts (engine.maxArgs + 1))) error hs hf
  rw [ht, parseAmountFromText_manyAmounts] at h1 h2
  refine ⟨h1, ?_, h2⟩
  rw [h1]
  show orElse (some engine.rangeErrorMessage) "Something went wrong".toList ≠ []
  unfold orElse
  cases hm : engine.rangeErrorMessage with
  | nil => decide
  | cons x r => simp

theorem handleUpload_parse_throws_witness :
    (handleUpload sampleEngine
        (fun _ => .response true
          (.object (some (manyAmounts (sampleEngine.maxArgs + 1))) none))
        (fun _ => .ok ()) "2024-01-01T00:00:00.000Z".toList
        { initialState with selectedFile := some ⟨"receipt.png".toList, "image/png".toList⟩ }).1 =
      { selectedFile := some ⟨"receipt.png".toList, "image/png".toList⟩, previewUrl := none,
        isUploading := false, ocrText := manyAmounts (sampleEngine.maxArgs + 1),
        errorMessage := orElse (some sampleEngine.rangeErrorMessage)
          "Something went wrong".toList }
    ∧ (handleUpload sampleEngine
        (fun _ => .response true
          (.object (some (manyAmounts (sampleEngine.maxArgs + 1))) none))
        (fun _ => .ok ()) "2024-01-01T00:00:00.000Z".toList
        { initialState with
            selectedFile := some ⟨"receipt.png".toList, "image/png".toList⟩ }).1.errorMessage ≠ []
    ∧ (handleUpload sampleEngine
        (fun _ => .response true
          (.object (some (manyAmounts (sampleEngine.maxArgs + 1))) none))
        (fun _ => .ok ()) "2024-01-01T00:00:00.000Z".toList
        { initialState with selectedFile := some ⟨"receipt.png".toList, "image/png".toList⟩ }).2
      = [.upload ⟨"receipt.png".toList, "image/png".toList⟩] :=
  handleUpload_parse_throws sampleEngine
    (fun _ => .response true (.object (some (manyAmounts (sampleEngine.maxArgs + 1))) none))
    (fun _ => .ok ()) "2024-01-01T00:00:00.000Z".toList
    ⟨"receipt.png".toList, "image/png".toList⟩
    { initialState with selectedFile := some ⟨"receipt.png".toList, "image/png".toList⟩ }
    none rfl rfl

end MoneyMind
